import Mathlib

/-!
# Linked-list arrays of `src/array/mylist_threeD.c`

A shallow embedding of the depth-aware list (`struct List` / `struct Node`) and of
the operations defined on it, followed by theorems about them.

Conventions of the embedding.

* A `struct Node *` is the chain of nodes it points at: `[]` is `NULL`, and
  `data :: next` is a node with its `data` word and its `next` link.  Inside one
  (acyclic) chain a node is determined by the number of nodes from it to the end.
* A data word (`unsigned long data`) is `Data.word w` when it is a plain machine
  word (a borrowed leaf reference or a scalar) and `Data.list l` when it is the
  address of a nested `struct List`.
* Dereferencing `NULL`, or using a plain word as a `struct List *`, is a `Fault`.
* Values of C type `int` that are computed from comparator results (`abs`,
  `total += ...`) are reduced to 32 bits (two-complement wrap-around) by `wrapInt`.  Node
  counters and indices (`count++`, `indexAt++`, `index - 1`) count nodes of a
  chain held in memory and are kept as mathematical integers.
* `malloc` is taken to succeed.
-/

namespace MyList3D

/-! ## Data model -/

mutual
/-- The `unsigned long data` word of a node. -/
inductive Data where
  | word (w : Nat)
  | list (l : CList)
/-- The `struct List`: head of the node chain, element size hint, nesting depth. -/
inductive CList where
  | mk (head : List Data) (size_of_type : Nat) (depth : Int)
end

/-- A `struct Node *`: `[]` is `NULL`, `data :: next` a node. -/
abbrev NodePtr := List Data

/-- The field `list->head`. -/
def CList.head : CList → NodePtr
  | .mk head _ _ => head

/-- The field `list->size_of_type`. -/
def CList.size_of_type : CList → Nat
  | .mk _ size_of_type _ => size_of_type

/-- The field `list->depth`. -/
def CList.depth : CList → Int
  | .mk _ _ depth => depth

/-- The assignment `list->head = head`. -/
def CList.setHead : CList → NodePtr → CList
  | .mk _ size_of_type depth, head => .mk head size_of_type depth

/-- Ways in which an operation leaves defined behaviour. -/
inductive Fault where
  | nullDeref
  | badCast
  deriving DecidableEq, Repr

/-- Outcome of a call that invokes the comparator: the returned value (or the
fault) and the comparator invocations made, in order. -/
structure Run (α : Type) where
  ret : Except Fault α
  calls : List (Data × Data)

/-- A C `int` result reduced to 32 bits, wrapping around as two-complement machine arithmetic does. -/
def wrapInt (x : Int) : Int :=
  (x + 2147483648) % 4294967296 - 2147483648

/-- The libc `abs` on `int`. -/
def absInt (x : Int) : Int :=
  wrapInt (if x < 0 then -x else x)

/-! ## Operations -/

/-- The loop of `length`: `while(node) { node = node->next; count++; }`. -/
def lengthLoop : NodePtr → Int → Int
  | [], count => count
  | _ :: next, count => lengthLoop next (count + 1)

/-- Source function `length`. -/
def length (list : CList) : Int :=
  lengthLoop list.head 0

/-- Source function `compareInts`; `mem` reads the `int` a data word points at. -/
def compareInts (mem : Data → Int) (a b : Data) : Int :=
  if mem a < mem b then -1
  else if mem a > mem b then 1
  else 0

/-- The loop of `compareLists` at `depth == 1`. -/
def compareListsLeaves (compar : Data → Data → Int) : NodePtr → NodePtr → Int → Run Int
  | [], _, total => ⟨.ok total, []⟩
  | _ :: _, [], _ => ⟨.error .nullDeref, []⟩
  | da :: nexta, db :: nextb, total =>
    let r := compareListsLeaves compar nexta nextb (wrapInt (total + absInt (compar da db)))
    ⟨r.ret, (da, db) :: r.calls⟩

/-- The verdict after a walk: `if ( total == 0 ) return 0; else return -1;`. -/
def verdict (total : Int) : Int :=
  if total = 0 then 0 else -1

mutual
/-- Source function `compareLists`. -/
def compareLists (compar : Data → Data → Int) : CList → CList → Run Int
  | .mk heada sizea deptha, .mk headb sizeb depthb =>
    if length (.mk heada sizea deptha) ≠ length (.mk headb sizeb depthb) then
      ⟨.ok (-1), []⟩
    else if deptha > 1 then
      let r := compareListsNested compar heada headb 0
      ⟨r.ret.map verdict, r.calls⟩
    else if deptha = 1 then
      let r := compareListsLeaves compar heada headb 0
      ⟨r.ret.map verdict, r.calls⟩
    else
      ⟨.ok (-1), []⟩
/-- The loop of `compareLists` at `depth > 1`. -/
def compareListsNested (compar : Data → Data → Int) : NodePtr → NodePtr → Int → Run Int
  | [], _, total => ⟨.ok total, []⟩
  | _ :: _, [], _ => ⟨.error .nullDeref, []⟩
  | .list la :: nexta, .list lb :: nextb, total =>
    let c := compareLists compar la lb
    match c.ret with
    | .error e => ⟨.error e, c.calls⟩
    | .ok v =>
      let r := compareListsNested compar nexta nextb (wrapInt (total + absInt v))
      ⟨r.ret, c.calls ++ r.calls⟩
  | _ :: _, _ :: _, _ => ⟨.error .badCast, []⟩
end

mutual
/-- Well-formed list: `depth ≥ 1`, and at `depth > 1` every element is the
address of a well-formed list of depth one less. -/
def wellFormed : CList → Bool
  | .mk head _ depth =>
    decide (1 ≤ depth) && (decide (depth ≤ 1) || wellFormedElems (depth - 1) head)
/-- Every element of the chain is a well-formed list of depth `d`. -/
def wellFormedElems (d : Int) : NodePtr → Bool
  | [] => true
  | .word _ :: _ => false
  | .list l :: next => decide (l.depth = d) && wellFormed l && wellFormedElems d next
end

deriving instance DecidableEq for Except

/-- The call `compareLists(x, y, compar)` on two data words used as
`struct List *`, as the searches make it. -/
def compareListsAt (compar : Data → Data → Int) : Data → Data → Except Fault Int
  | .list la, .list lb => (compareLists compar la lb).ret
  | _, _ => .error .badCast

/-- The loop of `findByIndex`. -/
def findByIndexLoop (indexSought : Int) : NodePtr → Int → NodePtr
  | [], _ => []
  | data :: next, indexAt =>
    if indexSought = indexAt then data :: next
    else findByIndexLoop indexSought next (indexAt + 1)

/-- Source function `findByIndex`. -/
def findByIndex (list : CList) (indexSought : Int) : NodePtr :=
  findByIndexLoop indexSought list.head 0

/-- The loop of `findNode` at `depth == 1`. -/
def findNodeLeaves (compar : Data → Data → Int) (dataSought : Data) : NodePtr → NodePtr
  | [] => []
  | data :: next =>
    if compar dataSought data = 0 then data :: next
    else findNodeLeaves compar dataSought next

/-- The loop of `findNode` at `depth > 1`. -/
def findNodeNested (compar : Data → Data → Int) (dataSought : Data) :
    NodePtr → Except Fault NodePtr
  | [] => .ok []
  | data :: next =>
    match compareListsAt compar dataSought data with
    | .error e => .error e
    | .ok r =>
      if r = 0 then .ok (data :: next)
      else findNodeNested compar dataSought next

/-- Source function `findNode`. -/
def findNode (list : CList) (dataSought : Data) (compar : Data → Data → Int) :
    Except Fault NodePtr :=
  if list.depth = 1 then .ok (findNodeLeaves compar dataSought list.head)
  else if list.depth > 1 then findNodeNested compar dataSought list.head
  else .ok []

/-- The loop of `findIndexOfNode` at `depth == 1`. -/
def findIndexOfNodeLeaves (compar : Data → Data → Int) (dataSought : Data) :
    NodePtr → Int → Int
  | [], count => count
  | data :: next, count =>
    if compar dataSought data = 0 then count
    else findIndexOfNodeLeaves compar dataSought next (count + 1)

/-- The loop of `findIndexOfNode` at `depth > 1`. -/
def findIndexOfNodeNested (compar : Data → Data → Int) (dataSought : Data) :
    NodePtr → Int → Except Fault Int
  | [], count => .ok count
  | data :: next, count =>
    match compareListsAt compar dataSought data with
    | .error e => .error e
    | .ok r =>
      if r = 0 then .ok count
      else findIndexOfNodeNested compar dataSought next (count + 1)

/-- Source function `findIndexOfNode`. -/
def findIndexOfNode (list : CList) (dataSought : Data) (compar : Data → Data → Int) :
    Except Fault Int :=
  if list.depth = 1 then .ok (findIndexOfNodeLeaves compar dataSought list.head 0)
  else if list.depth > 1 then findIndexOfNodeNested compar dataSought list.head 0
  else .ok 0

/-- The loop of `removeNode` ("remove index other than first index"): the data
word returned and the chain from `node` on as the loop leaves it. -/
def removeNodeLoop (indexSought : Int) : NodePtr → Int → Except Fault (Data × NodePtr)
  | [], _ => .ok (.word 0, [])
  | data :: next, indexAt =>
    if indexSought - 1 = indexAt then
      match next with
      | [] => .error .nullDeref
      | removed :: after => .ok (removed, data :: after)
    else
      match removeNodeLoop indexSought next (indexAt + 1) with
      | .error e => .error e
      | .ok (removed, next1) => .ok (removed, data :: next1)

/-- Source function `removeNode`: the data word returned and the list afterwards. -/
def removeNode (list : CList) (indexSought : Int) : Except Fault (Data × CList) :=
  match list.head with
  | [] => .ok (.word 0, list)
  | data :: next =>
    if indexSought = 0 then .ok (data, list.setHead next)
    else
      match removeNodeLoop indexSought (data :: next) 0 with
      | .error e => .error e
      | .ok (removed, head1) => .ok (removed, list.setHead head1)

/-- Source function `addFront`: the list afterwards and the node created. -/
def addFront (list : CList) (data : Data) : CList × NodePtr :=
  let node := data :: list.head
  (list.setHead node, node)

/-- A store through the node pointer `node` into the chain `head` it belongs to:
the node and what follows it become `new`, the nodes before it are untouched. -/
def storeNode (head node new : NodePtr) : NodePtr :=
  head.take (head.length - node.length) ++ new

/-- Source function `addAfter`: the list afterwards and the node created. -/
def addAfter (list : CList) (prevNode : NodePtr) (data : Data) : CList × NodePtr :=
  match prevNode with
  | prevData :: prevNext =>
    let node := data :: prevNext
    (list.setHead (storeNode list.head prevNode (prevData :: node)), node)
  | [] =>
    let node := data :: list.head
    (list.setHead node, node)

/-- Source function `insertElement`: the list afterwards. -/
def insertElement (list : CList) (index : Int) (insert : Data) : CList :=
  if index = 0 then (addFront list insert).1
  else
    let x := index - 1
    let node := findByIndex list x
    (addAfter list node insert).1

/-- The test a search applies to an element: `compar` returns 0 at depth 1,
`compareLists` returns 0 at depth greater than 1. -/
def elementMatches (compar : Data → Data → Int) (depth : Int) (dataSought data : Data) : Bool :=
  if depth = 1 then decide (compar dataSought data = 0)
  else decide (compareListsAt compar dataSought data = .ok 0)

/-- The needle of a search suits the list: at depth greater than 1 it is the
address of a well-formed list of the depth of the elements. -/
def needleFits (list : CList) : Data → Bool
  | .word _ => decide (list.depth ≤ 1)
  | .list l => decide (list.depth ≤ 1) || (decide (l.depth = list.depth - 1) && wellFormed l)

/-- Source function `initList`: a list with no nodes. -/
def initList (size_of_type : Nat) (depth : Int) : CList :=
  .mk [] size_of_type depth

/-- Source function `popFront`: the data word returned and the list afterwards. -/
def popFront (list : CList) : Data × CList :=
  match list.head with
  | data :: next => (data, list.setHead next)
  | [] => (.word 0, list)

/-- Source function `removeAllNodes`: `while(list->head) { popFront(list); }`. -/
def removeAllNodes (list : CList) : CList :=
  match _hhead : list.head with
  | [] => list
  | _ :: _ => removeAllNodes (popFront list).2
termination_by list.head.length
decreasing_by
  cases list with
  | mk head size depth =>
    simp only [CList.head] at _hhead
    subst _hhead
    simp [popFront, CList.head, CList.setHead]

/-- The loop of `reverseList`, on `cur` and `prv`; the result is the final `prv`. -/
def reverseListLoop : NodePtr → NodePtr → NodePtr
  | [], prv => prv
  | data :: nxt, prv => reverseListLoop nxt (data :: prv)

/-- Source function `reverseList`. -/
def reverseList (list : CList) : CList :=
  list.setHead (reverseListLoop list.head [])

/-- Source function `assignElement`: the list afterwards. -/
def assignElement (list : CList) (index : Int) (insert : Data) : Except Fault CList :=
  match findByIndex list index with
  | [] => .error .nullDeref
  | data :: next => .ok (list.setHead (storeNode list.head (data :: next) (insert :: next)))

/-- Source function `contains`. -/
def contains (list : CList) (dataSought : Data) (compar : Data → Data → Int) :
    Except Fault Int :=
  match findNode list dataSought compar with
  | .error e => .error e
  | .ok (_ :: _) => .ok 1
  | .ok [] => .ok 0

/-- The calls `addFront(list, x)` for each `x` of a sequence in turn. -/
def addFrontEach (list : CList) : List Data → CList
  | [] => list
  | x :: rest => addFrontEach (addFront list x).1 rest

/-- The comparator invocations of the call `compareLists(x, y, compar)` on two
data words used as `struct List *`. -/
def compareListsCallsAt (compar : Data → Data → Int) : Data × Data → List (Data × Data)
  | (.list la, .list lb) => (compareLists compar la lb).calls
  | _ => []

/-- A depth-1 list of two leaves whose first data word is 0. -/
def zeroFirstList : CList := .mk [.word 0, .word 104] 4 1

/-! ## Scenario of the driver -/

/-- Memory of the driver as `compareInts` reads it: the arrays `nested` (at
addresses 100, 104, ..., 132) and `test` (at 200, 204, 208). -/
def driverMem : Data → Int
  | .word 100 => 1
  | .word 104 => 2
  | .word 108 => 3
  | .word 112 => 10
  | .word 116 => 20
  | .word 120 => 30
  | .word 124 => 100
  | .word 128 => 200
  | .word 132 => 300
  | _ => 0

/-- The row `[1, 2, 3]` (`intlist1`). -/
def intlist1 : CList := .mk [.word 100, .word 104, .word 108] 4 1

/-- The row `[10, 20, 30]` (`intlist2`). -/
def intlist2 : CList := .mk [.word 112, .word 116, .word 120] 4 1

/-- The row `[100, 200, 300]`. -/
def intlist3 : CList := .mk [.word 124, .word 128, .word 132] 4 1

/-- The matrix `nestedlist` after the array literal is built. -/
def nestedlist : CList := .mk [.list intlist1, .list intlist2, .list intlist3] 8 2

/-- The row `[0, 0, 0]` (`testlist`). -/
def testlist : CList := .mk [.word 200, .word 204, .word 208] 4 1

/-- A caller-supplied comparator in the subtraction idiom,
`return *(int *)a - *(int *)b;`. -/
def subtractInts (mem : Data → Int) (a b : Data) : Int :=
  wrapInt (mem a - mem b)

/-- Memory holding the `int` 1073741824 at addresses 300 to 312 and 0 elsewhere. -/
def bigMem : Data → Int
  | .word 300 => 1073741824
  | .word 304 => 1073741824
  | .word 308 => 1073741824
  | .word 312 => 1073741824
  | _ => 0

/-- A depth-1 list of four leaves, each pointing at 1073741824 in `bigMem`. -/
def bigList : CList := .mk [.word 300, .word 304, .word 308, .word 312] 4 1

/-- A depth-1 list of four leaves, each pointing at 0 in `bigMem`. -/
def zeroList : CList := .mk [.word 400, .word 404, .word 408, .word 412] 4 1

end MyList3D

/-! # The flat list of `src/array/mylist.c`

The same conventions apply. An `int *` argument is the `int` it points at; a
function that stores through it also returns the new value. -/

namespace MyList

open MyList3D (Data NodePtr Fault storeNode)

/-- The `struct List` of `mylist.c`: the head of the node chain. -/
structure CList where
  head : NodePtr

/-- Flat `initList`: `list->head = 0`. -/
def initList (_list : CList) : CList :=
  ⟨[]⟩

/-- Flat `isEmptyList`: `return (list->head == 0);`. -/
def isEmptyList (list : CList) : Int :=
  match list.head with
  | [] => 1
  | _ :: _ => 0

/-- The loop of the flat `findByIndex`. -/
def findByIndexLoop (indexSought : Int) : NodePtr → Int → NodePtr
  | [], _ => []
  | data :: next, indexAt =>
    if indexSought = indexAt then data :: next
    else findByIndexLoop indexSought next (indexAt + 1)

/-- Flat `findByIndex`; `indexSought` is the value of `*indexSought`. -/
def findByIndex (list : CList) (indexSought : Int) : NodePtr :=
  findByIndexLoop indexSought list.head 0

/-- The loop of the flat `length`. -/
def lengthLoop : NodePtr → Int → Int
  | [], count => count
  | _ :: next, count => lengthLoop next (count + 1)

/-- Flat `length`. -/
def length (list : CList) : Int :=
  lengthLoop list.head 0

/-- The loop of the flat `findNode`. -/
def findNodeLoop (compar : Data → Data → Int) (dataSought : Data) : NodePtr → NodePtr
  | [] => []
  | data :: next =>
    if compar dataSought data = 0 then data :: next
    else findNodeLoop compar dataSought next

/-- Flat `findNode`. -/
def findNode (list : CList) (dataSought : Data) (compar : Data → Data → Int) : NodePtr :=
  findNodeLoop compar dataSought list.head

/-- The loop of the flat `findIndexOfNode`. -/
def findIndexOfNodeLoop (compar : Data → Data → Int) (dataSought : Data) :
    NodePtr → Int → Int
  | [], count => count
  | data :: next, count =>
    if compar dataSought data = 0 then count
    else findIndexOfNodeLoop compar dataSought next (count + 1)

/-- Flat `findIndexOfNode`. -/
def findIndexOfNode (list : CList) (dataSought : Data) (compar : Data → Data → Int) : Int :=
  findIndexOfNodeLoop compar dataSought list.head 0

/-- The loop of the flat `removeNode`. -/
def removeNodeLoop (indexSought : Int) : NodePtr → Int → Except Fault (Data × NodePtr)
  | [], _ => .ok (.word 0, [])
  | data :: next, indexAt =>
    if indexSought - 1 = indexAt then
      match next with
      | [] => .error .nullDeref
      | removed :: after => .ok (removed, data :: after)
    else
      match removeNodeLoop indexSought next (indexAt + 1) with
      | .error e => .error e
      | .ok (removed, next1) => .ok (removed, data :: next1)

/-- Flat `removeNode`; `indexSought` is the value of `*indexSought`. The data
pointer returned (`NULL` is the word 0) and the list afterwards. -/
def removeNode (list : CList) (indexSought : Int) : Except Fault (Data × CList) :=
  match list.head with
  | [] => .ok (.word 0, list)
  | data :: next =>
    if indexSought = 0 then .ok (data, ⟨next⟩)
    else
      match removeNodeLoop indexSought (data :: next) 0 with
      | .error e => .error e
      | .ok (removed, head1) => .ok (removed, ⟨head1⟩)

/-- Flat `popFront`. -/
def popFront (list : CList) : Data × CList :=
  match list.head with
  | data :: next => (data, ⟨next⟩)
  | [] => (.word 0, list)

/-- Flat `addFront`: the list afterwards and the node created. -/
def addFront (list : CList) (data : Data) : CList × NodePtr :=
  let node := data :: list.head
  (⟨node⟩, node)

/-- Flat `addAfter`: the list afterwards and the node created. -/
def addAfter (list : CList) (prevNode : NodePtr) (data : Data) : CList × NodePtr :=
  match prevNode with
  | prevData :: prevNext =>
    let node := data :: prevNext
    (⟨storeNode list.head prevNode (prevData :: node)⟩, node)
  | [] =>
    let node := data :: list.head
    (⟨node⟩, node)

/-- The loop of the flat `reverseList`. -/
def reverseListLoop : NodePtr → NodePtr → NodePtr
  | [], prv => prv
  | data :: nxt, prv => reverseListLoop nxt (data :: prv)

/-- Flat `reverseList`. -/
def reverseList (list : CList) : CList :=
  ⟨reverseListLoop list.head []⟩

/-- The loop of `createIntArrayLiteral`, with `remaining` iterations to go:
`addFront(list, &arr[i])`, the address of `arr[i]` being `arr + 4 * i`. -/
def createIntArrayLiteralLoop (arr : Nat) : Nat → Nat → CList → CList
  | 0, _, list => list
  | remaining + 1, i, list =>
    createIntArrayLiteralLoop arr remaining (i + 1) (addFront list (.word (arr + 4 * i))).1

/-- Source function `createIntArrayLiteral`; `arr` is the address of the array. -/
def createIntArrayLiteral (list : CList) (arr : Nat) (numElements : Int) : CList :=
  reverseList (createIntArrayLiteralLoop arr numElements.toNat 0 (initList list))

/-- Flat `compareInts`; `mem` reads the `int` a data word points at. -/
def compareInts (mem : Data → Int) (a b : Data) : Int :=
  if mem a < mem b then -1
  else if mem a > mem b then 1
  else 0

/-- Source function `containsInt`. -/
def containsInt (mem : Data → Int) (list : CList) (dataSought : Data) : Bool :=
  match findNode list dataSought (compareInts mem) with
  | _ :: _ => true
  | [] => false

/-- Flat `insertElement`: the list afterwards and the value of `*index`
afterwards. -/
def insertElement (list : CList) (index : Int) (insert : Data) : CList × Int :=
  if index = 0 then ((addFront list insert).1, index)
  else
    let index1 := index - 1
    let node := findByIndex list index1
    ((addAfter list node insert).1, index1)

/-- Flat `assignElement`; `index` is the value of `*index`. -/
def assignElement (list : CList) (index : Int) (insert : Data) : Except Fault CList :=
  match findByIndex list index with
  | [] => .error .nullDeref
  | data :: next => .ok ⟨storeNode list.head (data :: next) (insert :: next)⟩

/-! ## Scenario of the flat driver -/

/-- Memory of the flat driver: `intarr2` at addresses 500 to 516, `int_d` at
600, `int_e` at 604, `int_c` at 608 and `int_c1` at 612. -/
def flatMem : Data → Int
  | .word 500 => 10
  | .word 504 => 2
  | .word 508 => 3
  | .word 512 => 7
  | .word 516 => 50
  | .word 600 => 8
  | .word 604 => 20
  | .word 608 => 7
  | .word 612 => -7
  | _ => 0

/-- The `int`s a list of `int` pointers shows, as `traverseList` with `printInt`
prints them. -/
def values (mem : Data → Int) (list : CList) : List Int :=
  list.head.map mem

/-- The list `intlist` after `createIntArrayLiteral(&intlist, intarr2, 5)`. -/
def intlist : CList :=
  createIntArrayLiteral ⟨[]⟩ 500 5

/-- The insert, assign and delete steps of the driver on `intlist`, all three
passing the address of the one variable `int_pos`, set to 1: the values shown
after each step. -/
def intScenario : Except Fault (List Int × List Int × List Int) :=
  let int_pos := 1
  let inserted := insertElement intlist int_pos (.word 600)
  let int_pos := inserted.2
  match assignElement inserted.1 int_pos (.word 604) with
  | .error e => .error e
  | .ok assigned =>
    match removeNode assigned int_pos with
    | .error e => .error e
    | .ok removed =>
      .ok (values flatMem inserted.1, values flatMem assigned, values flatMem removed.2)

end MyList

namespace MyList3D

/-! ## Basic facts -/

theorem lengthLoop_eq (chain : NodePtr) (count : Int) :
    lengthLoop chain count = count + (chain.length : Int) := by
  induction chain generalizing count with
  | nil => simp [lengthLoop]
  | cons d next ih => simp [lengthLoop, ih]; ring

theorem length_eq (list : CList) : length list = (list.head.length : Int) := by
  simp [length, lengthLoop_eq]

theorem wrapInt_zero_step : wrapInt (absInt 0) = 0 := by decide

/-! ## Structural equality -/

theorem compareListsLeaves_refl (compar : Data → Data → Int) (hc : ∀ x, compar x x = 0)
    (chain : NodePtr) : (compareListsLeaves compar chain chain 0).ret = .ok 0 := by
  induction chain with
  | nil => simp [compareListsLeaves]
  | cons d next ih => simp [compareListsLeaves, hc, wrapInt_zero_step, ih]

theorem compareLists_self_depth (compar : Data → Data → Int) (hc : ∀ x, compar x x = 0) :
    ∀ (n : Nat) (l : CList), l.depth = (n : Int) + 1 → wellFormed l = true →
      (compareLists compar l l).ret = .ok 0 := by
  intro n
  induction n with
  | zero =>
    intro l hd _
    cases l with
    | mk head size depth =>
      simp only [CList.depth] at hd
      subst hd
      simp [compareLists, compareListsLeaves_refl compar hc, Except.map, verdict]
  | succ n ih =>
    intro l hd hwf
    cases l with
    | mk head size depth =>
      simp only [CList.depth] at hd
      subst hd
      have hgt : ((n + 1 : Nat) : Int) + 1 > 1 := by omega
      have hle : ¬ (((n + 1 : Nat) : Int) + 1 ≤ 1) := by omega
      simp only [wellFormed, hle, decide_False, Bool.false_or, Bool.and_eq_true] at hwf
      have helems : wellFormedElems ((n : Int) + 1) head = true := by
        have h2 := hwf.2
        have e : ((n + 1 : Nat) : Int) + 1 - 1 = (n : Int) + 1 := by push_cast; ring
        rw [e] at h2
        exact h2
      have hloop : ∀ chain : NodePtr, wellFormedElems ((n : Int) + 1) chain = true →
          (compareListsNested compar chain chain 0).ret = .ok 0 := by
        intro chain
        induction chain with
        | nil => intro _; simp [compareListsNested]
        | cons d next ihc =>
          intro hw
          cases d with
          | word w => simp [wellFormedElems] at hw
          | list e =>
            simp only [wellFormedElems, Bool.and_eq_true, decide_eq_true_eq] at hw
            have he := ih e hw.1.1 hw.1.2
            simp [compareListsNested, he, wrapInt_zero_step, ihc hw.2]
      simp [compareLists, hgt, hloop head helems, Except.map, verdict]

/-- C1: reflexivity of structural equality. For every well-formed list and every
comparator that returns 0 on an element compared with itself, `compareLists(L, L)`
returns 0. -/
theorem compareLists_refl (compar : Data → Data → Int) (l : CList)
    (hwf : wellFormed l = true) (hc : ∀ x, compar x x = 0) :
    (compareLists compar l l).ret = .ok 0 := by
  have h1 : 1 ≤ l.depth := by
    cases l with
    | mk head size depth =>
      simp only [wellFormed, Bool.and_eq_true, decide_eq_true_eq] at hwf
      exact hwf.1
  refine compareLists_self_depth compar hc (l.depth - 1).toNat l ?_ hwf
  omega

theorem verdict_cases (t : Int) : verdict t = 0 ∨ verdict t = -1 := by
  unfold verdict
  split <;> simp

theorem compareListsLeaves_defined (compar : Data → Data → Int) :
    ∀ (a b : NodePtr) (total : Int), a.length = b.length →
      ∃ t, (compareListsLeaves compar a b total).ret = .ok t := by
  intro a
  induction a with
  | nil => intro b total _; exact ⟨total, by simp [compareListsLeaves]⟩
  | cons da nexta ih =>
    intro b total hlen
    cases b with
    | nil => simp at hlen
    | cons db nextb =>
      simp only [List.length_cons, add_left_inj] at hlen
      obtain ⟨t, ht⟩ := ih nextb (wrapInt (total + absInt (compar da db))) hlen
      exact ⟨t, by simp [compareListsLeaves, ht]⟩

theorem compareLists_defined_depth (compar : Data → Data → Int) :
    ∀ (n : Nat) (a b : CList), a.depth = (n : Int) + 1 → b.depth = (n : Int) + 1 →
      wellFormed a = true → wellFormed b = true →
      ∃ r, (compareLists compar a b).ret = .ok r ∧ (r = 0 ∨ r = -1) := by
  intro n
  induction n with
  | zero =>
    intro a b hda _ _ _
    cases a with
    | mk heada sizea deptha =>
      cases b with
      | mk headb sizeb depthb =>
        simp only [CList.depth] at hda
        subst hda
        by_cases hlen : heada.length = headb.length
        · obtain ⟨t, ht⟩ := compareListsLeaves_defined compar heada headb 0 hlen
          exact ⟨verdict t, by simp [compareLists, length_eq, CList.head, hlen, ht, Except.map],
            verdict_cases t⟩
        · exact ⟨-1, by simp [compareLists, length_eq, CList.head, hlen], Or.inr rfl⟩
  | succ n ih =>
    intro a b hda hdb hwa hwb
    cases a with
    | mk heada sizea deptha =>
      cases b with
      | mk headb sizeb depthb =>
        simp only [CList.depth] at hda hdb
        subst hda
        subst hdb
        have hgt : ((n + 1 : Nat) : Int) + 1 > 1 := by omega
        have hle : ¬ (((n + 1 : Nat) : Int) + 1 ≤ 1) := by omega
        have e : ((n + 1 : Nat) : Int) + 1 - 1 = (n : Int) + 1 := by push_cast; ring
        simp only [wellFormed, hle, decide_False, Bool.false_or, Bool.and_eq_true, e] at hwa hwb
        have hloop : ∀ (ca cb : NodePtr) (total : Int), ca.length = cb.length →
            wellFormedElems ((n : Int) + 1) ca = true →
            wellFormedElems ((n : Int) + 1) cb = true →
            ∃ t, (compareListsNested compar ca cb total).ret = .ok t := by
          intro ca
          induction ca with
          | nil => intro cb total _ _ _; exact ⟨total, by simp [compareListsNested]⟩
          | cons da nexta ihc =>
            intro cb total hlen hca hcb
            cases cb with
            | nil => simp at hlen
            | cons db nextb =>
              simp only [List.length_cons, add_left_inj] at hlen
              cases da with
              | word w => simp [wellFormedElems] at hca
              | list la =>
                cases db with
                | word w => simp [wellFormedElems] at hcb
                | list lb =>
                  simp only [wellFormedElems, Bool.and_eq_true, decide_eq_true_eq] at hca hcb
                  obtain ⟨r, hr, _⟩ := ih la lb hca.1.1 hcb.1.1 hca.1.2 hcb.1.2
                  obtain ⟨t, ht⟩ := ihc nextb (wrapInt (total + absInt r)) hlen hca.2 hcb.2
                  exact ⟨t, by simp [compareListsNested, hr, ht]⟩
        by_cases hlen : heada.length = headb.length
        · obtain ⟨t, ht⟩ := hloop heada headb 0 hlen hwa.2 hwb.2
          exact ⟨verdict t,
            by simp [compareLists, length_eq, CList.head, hlen, hgt, ht, Except.map],
            verdict_cases t⟩
        · exact ⟨-1, by simp [compareLists, length_eq, CList.head, hlen], Or.inr rfl⟩

theorem wellFormed_depth_pos (l : CList) (hwf : wellFormed l = true) : 1 ≤ l.depth := by
  cases l with
  | mk head size depth =>
    simp only [wellFormed, Bool.and_eq_true, decide_eq_true_eq] at hwf
    exact hwf.1

/-- Two well-formed lists of the same depth are compared without fault, and the
result is 0 or -1. -/
theorem compareLists_defined (compar : Data → Data → Int) (a b : CList)
    (hd : a.depth = b.depth) (hwa : wellFormed a = true) (hwb : wellFormed b = true) :
    ∃ r, (compareLists compar a b).ret = .ok r ∧ (r = 0 ∨ r = -1) := by
  have h1 := wellFormed_depth_pos a hwa
  refine compareLists_defined_depth compar (a.depth - 1).toNat a b ?_ ?_ hwa hwb <;> omega

/-! ## Exactness of the comparison while the total does not wrap -/

theorem wrapInt_of_small (x : Int) (h0 : 0 ≤ x) (h1 : x < 2147483648) : wrapInt x = x := by
  unfold wrapInt
  omega

theorem absInt_tristate (c : Int) (h : c = -1 ∨ c = 0 ∨ c = 1) :
    (c = 0 → absInt c = 0) ∧ (c ≠ 0 → absInt c = 1) := by
  rcases h with h | h | h <;> subst h <;> exact ⟨by decide, by decide⟩

theorem compareListsLeaves_exact (compar : Data → Data → Int)
    (htri : ∀ x y, compar x y = -1 ∨ compar x y = 0 ∨ compar x y = 1) :
    ∀ (a b : NodePtr) (total : Int), a.length = b.length → 0 ≤ total →
      total + (a.length : Int) < 2147483648 →
      ∃ t, (compareListsLeaves compar a b total).ret = .ok t ∧ total ≤ t ∧
        (t = total ↔ ∀ p ∈ List.zip a b, compar p.1 p.2 = 0) := by
  intro a
  induction a with
  | nil =>
    intro b total _ _ _
    exact ⟨total, by simp [compareListsLeaves], le_refl _, by simp⟩
  | cons da nexta ih =>
    intro b total hlen h0 hsmall
    cases b with
    | nil => simp at hlen
    | cons db nextb =>
      simp only [List.length_cons, add_left_inj] at hlen
      simp only [List.length_cons] at hsmall
      obtain ⟨hz, hnz⟩ := absInt_tristate (compar da db) (htri da db)
      by_cases hc : compar da db = 0
      · have hstep : wrapInt (total + absInt (compar da db)) = total := by
          rw [hz hc, add_zero, wrapInt_of_small total h0 (by omega)]
        obtain ⟨t, ht, hle, hiff⟩ := ih nextb total hlen h0 (by omega)
        refine ⟨t, by simp [compareListsLeaves, hstep, ht], hle, ?_⟩
        rw [hiff]
        simp [hc]
      · have hstep : wrapInt (total + absInt (compar da db)) = total + 1 := by
          rw [hnz hc, wrapInt_of_small (total + 1) (by omega) (by omega)]
        obtain ⟨t, ht, hle, _⟩ := ih nextb (total + 1) hlen (by omega) (by omega)
        refine ⟨t, by simp [compareListsLeaves, hstep, ht], by omega, ?_⟩
        constructor
        · intro h
          omega
        · intro h
          exact absurd (h (da, db) (by simp)) hc

theorem compareListsNested_exact (compar : Data → Data → Int) (d : Int)
    (hdef : ∀ la lb : CList, la.depth = d → lb.depth = d → wellFormed la = true →
      wellFormed lb = true → ∃ r, (compareLists compar la lb).ret = .ok r ∧ (r = 0 ∨ r = -1)) :
    ∀ (a b : NodePtr) (total : Int), a.length = b.length → 0 ≤ total →
      total + (a.length : Int) < 2147483648 →
      wellFormedElems d a = true → wellFormedElems d b = true →
      ∃ t, (compareListsNested compar a b total).ret = .ok t ∧ total ≤ t ∧
        (t = total ↔ ∀ p ∈ List.zip a b, compareListsAt compar p.1 p.2 = .ok 0) := by
  intro a
  induction a with
  | nil =>
    intro b total _ _ _ _ _
    exact ⟨total, by simp [compareListsNested], le_refl _, by simp⟩
  | cons da nexta ih =>
    intro b total hlen h0 hsmall hwa hwb
    cases b with
    | nil => simp at hlen
    | cons db nextb =>
      simp only [List.length_cons, add_left_inj] at hlen
      simp only [List.length_cons] at hsmall
      cases da with
      | word w => simp [wellFormedElems] at hwa
      | list la =>
        cases db with
        | word w => simp [wellFormedElems] at hwb
        | list lb =>
          simp only [wellFormedElems, Bool.and_eq_true, decide_eq_true_eq] at hwa hwb
          obtain ⟨r, hr, hr01⟩ := hdef la lb hwa.1.1 hwb.1.1 hwa.1.2 hwb.1.2
          rcases hr01 with hr0 | hr1
          · subst hr0
            have hstep : wrapInt (total + absInt 0) = total := by
              rw [show absInt 0 = 0 by decide, add_zero, wrapInt_of_small total h0 (by omega)]
            obtain ⟨t, ht, hle, hiff⟩ := ih nextb total hlen h0 (by omega) hwa.2 hwb.2
            refine ⟨t, by simp [compareListsNested, hr, hstep, ht], hle, ?_⟩
            rw [hiff]
            simp [compareListsAt, hr]
          · subst hr1
            have hstep : wrapInt (total + absInt (-1)) = total + 1 := by
              rw [show absInt (-1) = 1 by decide,
                wrapInt_of_small (total + 1) (by omega) (by omega)]
            obtain ⟨t, ht, hle, _⟩ := ih nextb (total + 1) hlen (by omega) (by omega) hwa.2 hwb.2
            refine ⟨t, by simp [compareListsNested, hr, hstep, ht], by omega, ?_⟩
            constructor
            · intro h
              omega
            · intro h
              have := h (.list la, .list lb) (by simp)
              simp [compareListsAt, hr] at this

theorem verdict_eq_zero (t : Int) : verdict t = 0 ↔ t = 0 := by
  unfold verdict
  by_cases h : t = 0
  · simp [h]
  · simp [h]

theorem wellFormed_elems (head : NodePtr) (size : Nat) (depth : Int)
    (hwf : wellFormed (.mk head size depth) = true) (hd : depth > 1) :
    wellFormedElems (depth - 1) head = true := by
  have hle : ¬ depth ≤ 1 := by omega
  simp only [wellFormed, hle, decide_False, Bool.false_or, Bool.and_eq_true] at hwf
  exact hwf.2

/-- Exactness for tri-state comparators: for well-formed lists of the same depth,
the first shorter than 2147483648 nodes, and a comparator with values in
`{-1, 0, 1}`, `compareLists` returns 0 exactly when the lengths are equal and
every pair of corresponding elements matches. -/
theorem compareLists_exact_tristate (compar : Data → Data → Int)
    (htri : ∀ x y, compar x y = -1 ∨ compar x y = 0 ∨ compar x y = 1)
    (a b : CList) (hd : a.depth = b.depth)
    (hwa : wellFormed a = true) (hwb : wellFormed b = true)
    (hsmall : length a < 2147483648) :
    (compareLists compar a b).ret = .ok 0 ↔
      length a = length b ∧
      ∀ p ∈ List.zip a.head b.head, elementMatches compar a.depth p.1 p.2 = true := by
  have h1 := wellFormed_depth_pos a hwa
  cases a with
  | mk heada sizea deptha =>
    cases b with
    | mk headb sizeb depthb =>
      simp only [CList.depth] at hd h1
      subst hd
      have hdepth : (CList.mk heada sizea deptha).depth = deptha := rfl
      have hheada : (CList.mk heada sizea deptha).head = heada := rfl
      have hheadb : (CList.mk headb sizeb deptha).head = headb := rfl
      rw [hdepth, hheada, hheadb]
      rw [length_eq, hheada] at hsmall
      by_cases hlen : heada.length = headb.length
      · have hlenI : length (CList.mk heada sizea deptha) = length (CList.mk headb sizeb deptha) := by
          rw [length_eq, length_eq, hheada, hheadb, hlen]
        by_cases hgt : deptha > 1
        · have hne : ¬ deptha = 1 := by omega
          obtain ⟨t, ht, _, hiff⟩ := compareListsNested_exact compar (deptha - 1)
            (fun la lb hla hlb hwla hwlb =>
              compareLists_defined compar la lb (by rw [hla, hlb]) hwla hwlb)
            heada headb 0 hlen (le_refl _) (by omega)
            (wellFormed_elems heada sizea deptha hwa hgt)
            (wellFormed_elems headb sizeb deptha hwb hgt)
          have hv := verdict_eq_zero t
          simp only [compareLists, hlenI, ne_eq, not_true_eq_false, if_false, hgt, if_true, ht,
            Except.map, elementMatches, hne, decide_eq_true_eq, true_and]
          rw [← hiff, ← hv]
          constructor
          · intro h; injection h
          · intro h; rw [h]
        · have h1' : deptha = 1 := by omega
          subst h1'
          obtain ⟨t, ht, _, hiff⟩ := compareListsLeaves_exact compar htri heada headb 0 hlen
            (le_refl _) (by omega)
          have hv := verdict_eq_zero t
          simp only [compareLists, hlenI, ne_eq, not_true_eq_false, if_false, gt_iff_lt,
            lt_self_iff_false, if_true, ht, Except.map, elementMatches, decide_eq_true_eq,
            true_and]
          rw [← hiff, ← hv]
          constructor
          · intro h; injection h
          · intro h; rw [h]
      · have hlenI : length (CList.mk heada sizea deptha) ≠ length (CList.mk headb sizeb deptha) := by
          rw [length_eq, length_eq, hheada, hheadb]
          exact_mod_cast hlen
        simp [compareLists, hlenI]

/-- C1 at the rows and the matrix of the driver. -/
theorem compareLists_refl_witness :
    (compareLists (compareInts driverMem) intlist1 intlist1).ret = .ok 0 ∧
    (compareLists (compareInts driverMem) nestedlist nestedlist).ret = .ok 0 ∧
    (compareLists (compareInts driverMem) (.mk [] 4 1) (.mk [] 4 1)).ret = .ok 0 :=
  ⟨compareLists_refl (compareInts driverMem) intlist1 (by decide) (by simp [compareInts]),
   compareLists_refl (compareInts driverMem) nestedlist (by decide) (by simp [compareInts]),
   compareLists_refl (compareInts driverMem) (.mk [] 4 1) (by decide) (by simp [compareInts])⟩

/-- C2: the accumulated total wraps around. On two depth-1 lists of four leaves,
with a subtraction comparator that returns 1073741824 on every pair, every pair
compares unequal and yet `compareLists` returns 0. -/
theorem compareLists_total_wraps :
    length bigList = length zeroList ∧
    (∀ p ∈ List.zip bigList.head zeroList.head, subtractInts bigMem p.1 p.2 = 1073741824) ∧
    (compareLists (subtractInts bigMem) bigList zeroList).ret = .ok 0 := by
  decide

/-- C3: lists of different length compare unequal, the result is the nonzero
value -1 whatever their contents and depths, and the comparator is not called. -/
theorem compareLists_length_mismatch (compar : Data → Data → Int) (a b : CList)
    (hlen : length a ≠ length b) :
    (compareLists compar a b).ret = .ok (-1) ∧ (-1 : Int) ≠ 0 ∧
    (compareLists compar a b).calls = [] := by
  cases a with
  | mk heada sizea deptha =>
    cases b with
    | mk headb sizeb depthb =>
      simp [compareLists, hlen]

/-- C3 at the matrix of the driver against a one-row list of depth 0. -/
theorem compareLists_length_mismatch_witness :
    length nestedlist ≠ length (.mk [.list intlist1] 8 0) ∧
    (compareLists (compareInts driverMem) nestedlist (.mk [.list intlist1] 8 0)).ret = .ok (-1) ∧
    (-1 : Int) ≠ 0 ∧
    (compareLists (compareInts driverMem) nestedlist (.mk [.list intlist1] 8 0)).calls = [] :=
  ⟨by decide,
   compareLists_length_mismatch (compareInts driverMem) nestedlist (.mk [.list intlist1] 8 0)
     (by decide)⟩

/-! ## Searches -/

theorem findIndexOfNodeLeaves_eq (compar : Data → Data → Int) (dataSought : Data) :
    ∀ (chain : NodePtr) (count : Int),
      findIndexOfNodeLeaves compar dataSought chain count =
        count + (chain.findIdx (fun d => decide (compar dataSought d = 0)) : Nat) := by
  intro chain
  induction chain with
  | nil => intro count; simp [findIndexOfNodeLeaves]
  | cons d next ih =>
    intro count
    by_cases h : compar dataSought d = 0
    · simp [findIndexOfNodeLeaves, List.findIdx_cons, h]
    · simp [findIndexOfNodeLeaves, List.findIdx_cons, h, ih]
      ring

theorem findIndexOfNodeNested_eq (compar : Data → Data → Int) (dataSought : Data) :
    ∀ (chain : NodePtr) (count : Int),
      (∀ d ∈ chain, ∃ r, compareListsAt compar dataSought d = .ok r) →
      findIndexOfNodeNested compar dataSought chain count =
        .ok (count +
          (chain.findIdx (fun d => decide (compareListsAt compar dataSought d = .ok 0)) : Nat)) := by
  intro chain
  induction chain with
  | nil => intro count _; simp [findIndexOfNodeNested]
  | cons d next ih =>
    intro count hdef
    obtain ⟨r, hr⟩ := hdef d (List.mem_cons_self d next)
    have hnext : ∀ e ∈ next, ∃ r, compareListsAt compar dataSought e = .ok r :=
      fun e he => hdef e (List.mem_cons_of_mem d he)
    by_cases h : r = 0
    · simp [findIndexOfNodeNested, List.findIdx_cons, hr, h]
    · simp [findIndexOfNodeNested, List.findIdx_cons, hr, h, ih (count + 1) hnext]
      ring

theorem findNodeLeaves_eq (compar : Data → Data → Int) (dataSought : Data) :
    ∀ chain : NodePtr,
      findNodeLeaves compar dataSought chain =
        chain.drop (chain.findIdx (fun d => decide (compar dataSought d = 0))) := by
  intro chain
  induction chain with
  | nil => simp [findNodeLeaves]
  | cons d next ih =>
    by_cases h : compar dataSought d = 0
    · simp [findNodeLeaves, List.findIdx_cons, h]
    · simp [findNodeLeaves, List.findIdx_cons, h, ih]

theorem findNodeNested_eq (compar : Data → Data → Int) (dataSought : Data) :
    ∀ chain : NodePtr,
      (∀ d ∈ chain, ∃ r, compareListsAt compar dataSought d = .ok r) →
      findNodeNested compar dataSought chain =
        .ok (chain.drop
          (chain.findIdx (fun d => decide (compareListsAt compar dataSought d = .ok 0)))) := by
  intro chain
  induction chain with
  | nil => intro _; simp [findNodeNested]
  | cons d next ih =>
    intro hdef
    obtain ⟨r, hr⟩ := hdef d (List.mem_cons_self d next)
    have hnext : ∀ e ∈ next, ∃ r, compareListsAt compar dataSought e = .ok r :=
      fun e he => hdef e (List.mem_cons_of_mem d he)
    by_cases h : r = 0
    · simp [findNodeNested, List.findIdx_cons, hr, h]
    · simp [findNodeNested, List.findIdx_cons, hr, h, ih hnext]

theorem wellFormedElems_mem (d : Int) :
    ∀ chain : NodePtr, wellFormedElems d chain = true → ∀ e ∈ chain,
      ∃ l, e = .list l ∧ l.depth = d ∧ wellFormed l = true := by
  intro chain
  induction chain with
  | nil => intro _ e he; simp at he
  | cons x next ih =>
    intro hw e he
    cases x with
    | word w => simp [wellFormedElems] at hw
    | list l =>
      simp only [wellFormedElems, Bool.and_eq_true, decide_eq_true_eq] at hw
      rcases List.mem_cons.mp he with rfl | hmem
      · exact ⟨l, rfl, hw.1.1, hw.1.2⟩
      · exact ih hw.2 e hmem

/-- In a well-formed list of depth greater than 1, a fitting needle is compared
with every element without fault. -/
theorem compareListsAt_defined (compar : Data → Data → Int) (list : CList) (dataSought : Data)
    (hwf : wellFormed list = true) (hfit : needleFits list dataSought = true)
    (hd : list.depth > 1) :
    ∀ d ∈ list.head, ∃ r, compareListsAt compar dataSought d = .ok r := by
  intro d hmem
  cases list with
  | mk head size depth =>
    simp only [CList.depth] at hd
    simp only [CList.head] at hmem
    have hle : ¬ depth ≤ 1 := by omega
    simp only [wellFormed, hle, decide_False, Bool.false_or, Bool.and_eq_true] at hwf
    obtain ⟨l, rfl, hld, hlw⟩ := wellFormedElems_mem (depth - 1) head hwf.2 d hmem
    have hdepth : (CList.mk head size depth).depth = depth := rfl
    cases dataSought with
    | word w => simp [needleFits, hdepth, hle] at hfit
    | list ln =>
      simp only [needleFits, hdepth, hle, decide_False, Bool.false_or, Bool.and_eq_true,
        decide_eq_true_eq] at hfit
      obtain ⟨r, hr, _⟩ := compareLists_defined compar ln l (by rw [hfit.1, hld]) hfit.2 hlw
      exact ⟨r, by simp [compareListsAt, hr]⟩

theorem findIndexOfNode_eq_findIdx (compar : Data → Data → Int) (list : CList) (dataSought : Data)
    (hwf : wellFormed list = true) (hfit : needleFits list dataSought = true) :
    findIndexOfNode list dataSought compar =
      .ok ((list.head.findIdx (elementMatches compar list.depth dataSought) : Nat) : Int) := by
  have h1 := wellFormed_depth_pos list hwf
  by_cases hd : list.depth = 1
  · have e : elementMatches compar list.depth dataSought =
        fun d => decide (compar dataSought d = 0) := by
      funext d; simp [elementMatches, hd]
    simp [findIndexOfNode, hd, findIndexOfNodeLeaves_eq]
    rw [← hd, e]
  · have hgt : list.depth > 1 := by omega
    have e : elementMatches compar list.depth dataSought =
        fun d => decide (compareListsAt compar dataSought d = .ok 0) := by
      funext d; simp [elementMatches, hd]
    have hdef := compareListsAt_defined compar list dataSought hwf hfit hgt
    simp [findIndexOfNode, hd, hgt, findIndexOfNodeNested_eq compar dataSought list.head 0 hdef, e]

theorem findNode_eq_drop (compar : Data → Data → Int) (list : CList) (dataSought : Data)
    (hwf : wellFormed list = true) (hfit : needleFits list dataSought = true) :
    findNode list dataSought compar =
      .ok (list.head.drop (list.head.findIdx (elementMatches compar list.depth dataSought))) := by
  have h1 := wellFormed_depth_pos list hwf
  by_cases hd : list.depth = 1
  · have e : elementMatches compar list.depth dataSought =
        fun d => decide (compar dataSought d = 0) := by
      funext d; simp [elementMatches, hd]
    simp [findNode, hd, findNodeLeaves_eq]
    rw [← hd, e]
  · have hgt : list.depth > 1 := by omega
    have e : elementMatches compar list.depth dataSought =
        fun d => decide (compareListsAt compar dataSought d = .ok 0) := by
      funext d; simp [elementMatches, hd]
    have hdef := compareListsAt_defined compar list dataSought hwf hfit hgt
    simp [findNode, hd, hgt, findNodeNested_eq compar dataSought list.head hdef, e]

/-- C4: `findIndexOfNode` returns the position `k` of the first matching element:
no element before position `k` matches; when some element matches, `k` is below
`length(list)` and the element at `k` matches; when none matches, `k` is exactly
`length(list)`. -/
theorem findIndexOfNode_first_match (compar : Data → Data → Int) (list : CList)
    (dataSought : Data) (hwf : wellFormed list = true)
    (hfit : needleFits list dataSought = true) :
    ∃ k : Nat, findIndexOfNode list dataSought compar = .ok (k : Int) ∧
      (∀ j, j < k → ∃ d, list.head[j]? = some d ∧
        elementMatches compar list.depth dataSought d = false) ∧
      ((∃ d ∈ list.head, elementMatches compar list.depth dataSought d = true) →
        (k : Int) < length list ∧
        ∃ d, list.head[k]? = some d ∧ elementMatches compar list.depth dataSought d = true) ∧
      ((∀ d ∈ list.head, elementMatches compar list.depth dataSought d = false) →
        (k : Int) = length list) := by
  refine ⟨list.head.findIdx (elementMatches compar list.depth dataSought),
    findIndexOfNode_eq_findIdx compar list dataSought hwf hfit, ?_, ?_, ?_⟩
  · intro j hj
    have hlen : j < list.head.length := lt_of_lt_of_le hj (List.findIdx_le_length _)
    refine ⟨list.head[j], List.getElem?_eq_getElem hlen, ?_⟩
    simpa using List.not_of_lt_findIdx hj
  · intro hex
    obtain ⟨d, hd, hm⟩ := hex
    have hlt : list.head.findIdx (elementMatches compar list.depth dataSought) <
        list.head.length := List.findIdx_lt_length_of_exists ⟨d, hd, hm⟩
    refine ⟨by rw [length_eq]; exact_mod_cast hlt, list.head[_], List.getElem?_eq_getElem hlt, ?_⟩
    exact List.findIdx_getElem
  · intro hnone
    rw [length_eq, List.findIdx_eq_length_of_false hnone]

/-- C4 at the matrix of the driver: the row `[10, 20, 30]` is found at index 1, and
the absent row `[0, 0, 0]` gives the length 3. -/
theorem findIndexOfNode_first_match_witness :
    findIndexOfNode nestedlist (.list intlist2) (compareInts driverMem) = .ok 1 ∧
    findIndexOfNode nestedlist (.list testlist) (compareInts driverMem) = .ok (length nestedlist) ∧
    ∃ k : Nat, findIndexOfNode nestedlist (.list intlist2) (compareInts driverMem) = .ok (k : Int) ∧
      (∀ j, j < k → ∃ d, nestedlist.head[j]? = some d ∧
        elementMatches (compareInts driverMem) nestedlist.depth (.list intlist2) d = false) ∧
      ((∃ d ∈ nestedlist.head,
          elementMatches (compareInts driverMem) nestedlist.depth (.list intlist2) d = true) →
        (k : Int) < length nestedlist ∧
        ∃ d, nestedlist.head[k]? = some d ∧
          elementMatches (compareInts driverMem) nestedlist.depth (.list intlist2) d = true) ∧
      ((∀ d ∈ nestedlist.head,
          elementMatches (compareInts driverMem) nestedlist.depth (.list intlist2) d = false) →
        (k : Int) = length nestedlist) :=
  ⟨by decide, by decide,
   findIndexOfNode_first_match (compareInts driverMem) nestedlist (.list intlist2)
     (by decide) (by decide)⟩

/-- C5: `findNode` returns the node at the position `k` of the first matching
element (the chain from that node on): no element before `k` matches; when some
element matches, the node returned is not `NULL` and its data word matches;
and `NULL` is returned exactly when no element matches. -/
theorem findNode_first_match (compar : Data → Data → Int) (list : CList)
    (dataSought : Data) (hwf : wellFormed list = true)
    (hfit : needleFits list dataSought = true) :
    ∃ k : Nat, findNode list dataSought compar = .ok (list.head.drop k) ∧
      (∀ j, j < k → ∃ d, list.head[j]? = some d ∧
        elementMatches compar list.depth dataSought d = false) ∧
      ((∃ d ∈ list.head, elementMatches compar list.depth dataSought d = true) →
        ∃ d, list.head.drop k = d :: list.head.drop (k + 1) ∧
          elementMatches compar list.depth dataSought d = true) ∧
      (findNode list dataSought compar = .ok [] ↔
        ∀ d ∈ list.head, elementMatches compar list.depth dataSought d = false) := by
  have hfind := findNode_eq_drop compar list dataSought hwf hfit
  refine ⟨list.head.findIdx (elementMatches compar list.depth dataSought), hfind, ?_, ?_, ?_⟩
  · intro j hj
    have hlen : j < list.head.length := lt_of_lt_of_le hj (List.findIdx_le_length _)
    refine ⟨list.head[j], List.getElem?_eq_getElem hlen, ?_⟩
    simpa using List.not_of_lt_findIdx hj
  · intro hex
    obtain ⟨d, hd, hm⟩ := hex
    have hlt : list.head.findIdx (elementMatches compar list.depth dataSought) <
        list.head.length := List.findIdx_lt_length_of_exists ⟨d, hd, hm⟩
    exact ⟨list.head[_], List.drop_eq_getElem_cons hlt, List.findIdx_getElem⟩
  · rw [hfind]
    constructor
    · intro h
      have h2 : list.head.drop
          (list.head.findIdx (elementMatches compar list.depth dataSought)) = [] := by
        simpa using h
      have h3 : list.head.length ≤
          list.head.findIdx (elementMatches compar list.depth dataSought) :=
        List.drop_eq_nil_iff.mp h2
      have h4 : list.head.findIdx (elementMatches compar list.depth dataSought) =
          list.head.length := le_antisymm (List.findIdx_le_length _) h3
      intro d hd
      have := List.findIdx_eq_length.mp h4 d hd
      simpa using this
    · intro hnone
      rw [List.findIdx_eq_length_of_false hnone]
      simp

/-- C5 at the matrix of the driver: the row `[10, 20, 30]` is found in the second
node, the row `[0, 0, 0]` is not found. -/
theorem findNode_first_match_witness :
    findNode nestedlist (.list intlist2) (compareInts driverMem) =
      .ok [.list intlist2, .list intlist3] ∧
    findNode nestedlist (.list testlist) (compareInts driverMem) = .ok [] ∧
    ∃ k : Nat, findNode nestedlist (.list intlist2) (compareInts driverMem) =
        .ok (nestedlist.head.drop k) ∧
      (∀ j, j < k → ∃ d, nestedlist.head[j]? = some d ∧
        elementMatches (compareInts driverMem) nestedlist.depth (.list intlist2) d = false) ∧
      ((∃ d ∈ nestedlist.head,
          elementMatches (compareInts driverMem) nestedlist.depth (.list intlist2) d = true) →
        ∃ d, nestedlist.head.drop k = d :: nestedlist.head.drop (k + 1) ∧
          elementMatches (compareInts driverMem) nestedlist.depth (.list intlist2) d = true) ∧
      (findNode nestedlist (.list intlist2) (compareInts driverMem) = .ok [] ↔
        ∀ d ∈ nestedlist.head,
          elementMatches (compareInts driverMem) nestedlist.depth (.list intlist2) d = false) :=
  ⟨by rfl, by rfl,
   findNode_first_match (compareInts driverMem) nestedlist (.list intlist2)
     (by decide) (by decide)⟩

/-! ## Index-based access and mutation -/

theorem findByIndexLoop_eq (indexSought : Int) :
    ∀ (chain : NodePtr) (indexAt : Int),
      findByIndexLoop indexSought chain indexAt =
        if indexAt ≤ indexSought ∧ indexSought < indexAt + chain.length then
          chain.drop (indexSought - indexAt).toNat
        else [] := by
  intro chain
  induction chain with
  | nil =>
    intro indexAt
    simp [findByIndexLoop]
  | cons d next ih =>
    intro indexAt
    by_cases h : indexSought = indexAt
    · subst h
      simp [findByIndexLoop]
    · simp only [findByIndexLoop, h, if_false, ih (indexAt + 1), List.length_cons]
      by_cases hin : indexAt ≤ indexSought ∧ indexSought < indexAt + ((next.length + 1 : Nat) : Int)
      · have hin2 : indexAt + 1 ≤ indexSought ∧ indexSought < indexAt + 1 + (next.length : Int) := by
          omega
        rw [if_pos hin, if_pos hin2]
        have e : (indexSought - indexAt).toNat = (indexSought - (indexAt + 1)).toNat + 1 := by
          omega
        rw [e, List.drop_succ_cons]
      · have hin2 : ¬ (indexAt + 1 ≤ indexSought ∧
            indexSought < indexAt + 1 + (next.length : Int)) := by
          omega
        rw [if_neg hin, if_neg hin2]

theorem findByIndex_eq (list : CList) (i : Int) :
    findByIndex list i =
      if 0 ≤ i ∧ i < length list then list.head.drop i.toNat else [] := by
  simp [findByIndex, findByIndexLoop_eq, length_eq]

/-- C6: `findByIndex(list, i)` is `NULL` when `i < 0` or `i >= length(list)`;
otherwise it is the node at position `i` from the head, holding the element at
position `i` and followed by the nodes after that position. -/
theorem findByIndex_spec (list : CList) (i : Int) :
    ((i < 0 ∨ length list ≤ i) → findByIndex list i = []) ∧
    ((0 ≤ i ∧ i < length list) →
      ∃ d, list.head[i.toNat]? = some d ∧
        findByIndex list i = d :: list.head.drop (i.toNat + 1)) := by
  constructor
  · intro h
    rw [findByIndex_eq, if_neg (by omega)]
  · intro h
    have hlt : i.toNat < list.head.length := by
      have := h.2
      rw [length_eq] at this
      omega
    refine ⟨list.head[i.toNat], List.getElem?_eq_getElem hlt, ?_⟩
    rw [findByIndex_eq, if_pos h]
    exact List.drop_eq_getElem_cons hlt

/-- C6 at the matrix of the driver: indices -1 and 3 give `NULL`, index 1 gives
the node of the row `[10, 20, 30]`. -/
theorem findByIndex_spec_witness :
    findByIndex nestedlist (-1) = [] ∧ findByIndex nestedlist 3 = [] ∧
    ∃ d, nestedlist.head[(1 : Int).toNat]? = some d ∧
      findByIndex nestedlist 1 = d :: nestedlist.head.drop ((1 : Int).toNat + 1) :=
  ⟨(findByIndex_spec nestedlist (-1)).1 (by decide),
   (findByIndex_spec nestedlist 3).1 (by decide),
   (findByIndex_spec nestedlist 1).2 (by decide)⟩

theorem removeNodeLoop_eq :
    ∀ (m : Nat) (chain : NodePtr) (indexAt : Int), m + 1 < chain.length →
      ∃ d, chain[m + 1]? = some d ∧
        removeNodeLoop (indexAt + m + 1) chain indexAt = .ok (d, chain.eraseIdx (m + 1)) := by
  intro m
  induction m with
  | zero =>
    intro chain indexAt hlen
    match chain, hlen with
    | data :: removed :: after, _ =>
      exact ⟨removed, by simp, by simp [removeNodeLoop]⟩
  | succ m ih =>
    intro chain indexAt hlen
    match chain, hlen with
    | data :: next, hlen =>
      have hlen2 : m + 1 < next.length := by simpa using hlen
      obtain ⟨d, hd, hloop⟩ := ih next (indexAt + 1) hlen2
      have hne : ¬ (indexAt + ((m + 1 : Nat) : Int) + 1 - 1 = indexAt) := by omega
      have e : indexAt + ((m + 1 : Nat) : Int) + 1 = indexAt + 1 + (m : Int) + 1 := by
        push_cast; ring
      refine ⟨d, by simpa using hd, ?_⟩
      simp only [removeNodeLoop, if_neg hne]
      rw [e, hloop]
      simp

theorem length_setHead (list : CList) (head : NodePtr) :
    length (list.setHead head) = (head.length : Int) := by
  cases list with
  | mk h s d => simp [length_eq, CList.setHead, CList.head]

theorem head_setHead (list : CList) (head : NodePtr) : (list.setHead head).head = head := by
  cases list with
  | mk h s d => rfl

/-- C7: for a valid index `i`, `removeNode(list, i)` returns the data word stored
at position `i`; the list afterwards is the former list without that position
(the other elements in their order), and its length is smaller by exactly 1. -/
theorem removeNode_valid (list : CList) (i : Int) (h0 : 0 ≤ i) (hlt : i < length list) :
    ∃ d, list.head[i.toNat]? = some d ∧
      removeNode list i = .ok (d, list.setHead (list.head.eraseIdx i.toNat)) ∧
      length (list.setHead (list.head.eraseIdx i.toNat)) = length list - 1 ∧
      (∀ j, j < i.toNat →
        (list.setHead (list.head.eraseIdx i.toNat)).head[j]? = list.head[j]?) ∧
      (∀ j, i.toNat ≤ j →
        (list.setHead (list.head.eraseIdx i.toNat)).head[j]? = list.head[j + 1]?) := by
  have hlen : i.toNat < list.head.length := by
    rw [length_eq] at hlt
    omega
  have hrest : length (list.setHead (list.head.eraseIdx i.toNat)) = length list - 1 ∧
      (∀ j, j < i.toNat →
        (list.setHead (list.head.eraseIdx i.toNat)).head[j]? = list.head[j]?) ∧
      (∀ j, i.toNat ≤ j →
        (list.setHead (list.head.eraseIdx i.toNat)).head[j]? = list.head[j + 1]?) := by
    refine ⟨?_, ?_, ?_⟩
    · rw [length_setHead, length_eq, List.length_eraseIdx_of_lt hlen]
      omega
    · intro j hj
      rw [head_setHead]
      exact List.getElem?_eraseIdx_of_lt _ _ _ hj
    · intro j hj
      rw [head_setHead]
      exact List.getElem?_eraseIdx_of_ge _ _ _ hj
  by_cases hi : i = 0
  · subst hi
    cases list with
    | mk head size depth =>
      match head, hlen with
      | data :: next, _ =>
        exact ⟨data, by simp [CList.head], by simp [removeNode, CList.head, CList.setHead],
          hrest⟩
  · obtain ⟨m, hm⟩ : ∃ m : Nat, i = (m : Int) + 1 := ⟨(i - 1).toNat, by omega⟩
    subst hm
    have hm1 : ((m : Int) + 1).toNat = m + 1 := by omega
    rw [hm1] at hlen hrest ⊢
    obtain ⟨d, hd, hloop⟩ := removeNodeLoop_eq m list.head 0 hlen
    refine ⟨d, hd, ?_, hrest⟩
    cases list with
    | mk head size depth =>
      match head, hlen with
      | data :: next, _ =>
        simp only [CList.head] at hloop
        have e : (0 : Int) + (m : Int) + 1 = (m : Int) + 1 := by ring
        rw [e] at hloop
        simp [removeNode, CList.head, hi, hloop]

/-- C7 at the matrix of the driver: removing index 1 returns the row
`[10, 20, 30]` and leaves the rows `[1, 2, 3]` and `[100, 200, 300]`. -/
theorem removeNode_valid_witness :
    removeNode nestedlist 1 = .ok (.list intlist2, .mk [.list intlist1, .list intlist3] 8 2) ∧
    ∃ d, nestedlist.head[(1 : Int).toNat]? = some d ∧
      removeNode nestedlist 1 =
        .ok (d, nestedlist.setHead (nestedlist.head.eraseIdx (1 : Int).toNat)) ∧
      length (nestedlist.setHead (nestedlist.head.eraseIdx (1 : Int).toNat)) =
        length nestedlist - 1 ∧
      (∀ j, j < (1 : Int).toNat →
        (nestedlist.setHead (nestedlist.head.eraseIdx (1 : Int).toNat)).head[j]? =
          nestedlist.head[j]?) ∧
      (∀ j, (1 : Int).toNat ≤ j →
        (nestedlist.setHead (nestedlist.head.eraseIdx (1 : Int).toNat)).head[j]? =
          nestedlist.head[j + 1]?) :=
  ⟨by rfl, removeNode_valid nestedlist 1 (by decide) (by decide)⟩

theorem removeNodeLoop_out_of_range (i : Int) :
    ∀ (chain : NodePtr) (indexAt : Int), (i ≤ indexAt ∨ indexAt + (chain.length : Int) < i) →
      removeNodeLoop i chain indexAt = .ok (.word 0, chain) := by
  intro chain
  induction chain with
  | nil => intro indexAt _; simp [removeNodeLoop]
  | cons d next ih =>
    intro indexAt h
    have hne : ¬ (i - 1 = indexAt) := by
      simp only [List.length_cons] at h
      omega
    have h2 : i ≤ indexAt + 1 ∨ indexAt + 1 + (next.length : Int) < i := by
      simp only [List.length_cons] at h
      omega
    simp only [removeNodeLoop, if_neg hne, ih (indexAt + 1) h2]

theorem removeNodeLoop_at_length :
    ∀ (chain : NodePtr) (indexAt : Int), chain ≠ [] →
      removeNodeLoop (indexAt + (chain.length : Int)) chain indexAt = .error .nullDeref := by
  intro chain
  induction chain with
  | nil => intro indexAt h; exact absurd rfl h
  | cons d next ih =>
    intro indexAt _
    cases next with
    | nil => simp [removeNodeLoop]
    | cons d2 next2 =>
      have hne : ¬ (indexAt + (((d :: d2 :: next2 : NodePtr).length : Nat) : Int) - 1 = indexAt) := by
        simp only [List.length_cons]
        omega
      have e : indexAt + (((d :: d2 :: next2 : NodePtr).length : Nat) : Int) =
          indexAt + 1 + (((d2 :: next2 : NodePtr).length : Nat) : Int) := by
        simp only [List.length_cons]
        push_cast
        ring
      have hrec := ih (indexAt + 1) (by simp)
      rw [← e] at hrec
      unfold removeNodeLoop
      simp only [if_neg hne, hrec]

/-- On an empty list, for a negative index and for an index above the length,
`removeNode` returns 0 and leaves the list as it is. -/
theorem removeNode_no_data (list : CList) (i : Int)
    (h : list.head = [] ∨ i < 0 ∨ length list < i) :
    removeNode list i = .ok (.word 0, list) := by
  cases list with
  | mk head size depth =>
    cases head with
    | nil => simp [removeNode, CList.head]
    | cons d next =>
      have h2 : i < 0 ∨ ((d :: next : NodePtr).length : Int) < i := by
        rcases h with h | h | h
        · simp [CList.head] at h
        · exact Or.inl h
        · rw [length_eq] at h
          exact Or.inr h
      have hne : ¬ i = 0 := by
        rcases h2 with h | h
        · omega
        · have : (0 : Int) ≤ ((d :: next : NodePtr).length : Int) := Int.natCast_nonneg _
          omega
      have hloop := removeNodeLoop_out_of_range i (d :: next) 0 (by omega)
      simp [removeNode, CList.head, hne, hloop, CList.setHead]

/-- On a non-empty list, `removeNode(list, length(list))` dereferences `NULL`. -/
theorem removeNode_at_length (list : CList) (hne : list.head ≠ []) :
    removeNode list (length list) = .error .nullDeref := by
  cases list with
  | mk head size depth =>
    cases head with
    | nil => exact absurd rfl hne
    | cons d next =>
      have hloop := removeNodeLoop_at_length (d :: next) 0 (by simp)
      have hpos : ¬ (((d :: next : NodePtr).length : Nat) : Int) = 0 := by simp; omega
      simp only [zero_add] at hloop
      simp only [removeNode, CList.head, length_eq, if_neg hpos, hloop]

/-- C8: with the index equal to the length (out of range) on the matrix of the
driver, `removeNode` does not return 0: it dereferences the `next` link of the
last node, which is `NULL`. -/
theorem removeNode_one_past_end_faults :
    length nestedlist = 3 ∧ removeNode nestedlist 3 = .error .nullDeref :=
  ⟨by decide, by rfl⟩

theorem insert_getElem?_lt (l : NodePtr) (n : Nat) (x : Data) (j : Nat)
    (hn : n ≤ l.length) (hj : j < n) : (l.take n ++ x :: l.drop n)[j]? = l[j]? := by
  rw [List.getElem?_append_left (by simp; omega), List.getElem?_take_of_lt hj]

theorem insert_getElem?_ge (l : NodePtr) (n : Nat) (x : Data) (j : Nat)
    (hn : n ≤ l.length) (hj : n ≤ j) : (l.take n ++ x :: l.drop n)[j + 1]? = l[j]? := by
  have hlen : (l.take n).length = n := by simp [hn]
  rw [List.getElem?_append_right (by omega), hlen]
  have e : j + 1 - n = (j - n) + 1 := by omega
  rw [e, List.getElem?_cons_succ, List.getElem?_drop]
  congr 1
  omega

theorem take_succ_of_drop (l : NodePtr) (m : Nat) (d : Data) (rest : NodePtr)
    (h : l.drop m = d :: rest) :
    m < l.length ∧ l.take (m + 1) = l.take m ++ [d] ∧ l.drop (m + 1) = rest := by
  have hlt : m < l.length := by
    by_contra hge
    rw [List.drop_eq_nil_of_le (by omega)] at h
    cases h
  rw [List.drop_eq_getElem_cons hlt] at h
  injection h with h1 h2
  refine ⟨hlt, ?_, h2⟩
  rw [List.take_succ, List.getElem?_eq_getElem hlt, h1]
  rfl

/-- A store through the pointer to the node at position `m` keeps the `m` nodes
before it. -/
theorem storeNode_drop (head : NodePtr) (m : Nat) (new : NodePtr) (hm : m ≤ head.length) :
    storeNode head (head.drop m) new = head.take m ++ new := by
  have e : head.length - (head.drop m).length = m := by
    rw [List.length_drop]
    omega
  rw [storeNode, e]

theorem insertElement_head (list : CList) (index : Int) (x : Data)
    (h0 : 0 ≤ index) (hle : index ≤ length list) :
    (insertElement list index x).head =
      list.head.take index.toNat ++ x :: list.head.drop index.toNat := by
  by_cases hi : index = 0
  · subst hi
    simp [insertElement, addFront, head_setHead]
  · obtain ⟨m, hm⟩ : ∃ m : Nat, index = (m : Int) + 1 := ⟨(index - 1).toNat, by omega⟩
    subst hm
    have hm1 : ((m : Int) + 1).toNat = m + 1 := by omega
    have hlen : m < list.head.length := by
      rw [length_eq] at hle
      omega
    have hfind : findByIndex list ((m : Int) + 1 - 1) =
        list.head[m] :: list.head.drop (m + 1) := by
      rw [findByIndex_eq, if_pos (by rw [length_eq]; omega)]
      have e : ((m : Int) + 1 - 1).toNat = m := by omega
      rw [e]
      exact List.drop_eq_getElem_cons hlen
    obtain ⟨_, htake, _⟩ := take_succ_of_drop list.head m list.head[m] (list.head.drop (m + 1))
      (List.drop_eq_getElem_cons hlen)
    have hstore := storeNode_drop list.head m (list.head[m] :: x :: list.head.drop (m + 1))
      (le_of_lt hlen)
    rw [List.drop_eq_getElem_cons hlen] at hstore
    simp only [insertElement, if_neg hi, hfind, addAfter, head_setHead, hstore, hm1]
    rw [htake, List.append_assoc]
    rfl

/-- C9: for `0 <= index <= length(list)`, after `insertElement(list, index, x)`
the node `findByIndex` returns for `index` holds `x`, the length has grown by 1,
the elements before `index` keep their positions and the elements from `index`
on are moved up by one position, in the same order. -/
theorem insertElement_in_range (list : CList) (index : Int) (x : Data)
    (h0 : 0 ≤ index) (hle : index ≤ length list) :
    (∃ next, findByIndex (insertElement list index x) index = x :: next) ∧
    length (insertElement list index x) = length list + 1 ∧
    (∀ j, j < index.toNat → (insertElement list index x).head[j]? = list.head[j]?) ∧
    (∀ j, index.toNat ≤ j → (insertElement list index x).head[j + 1]? = list.head[j]?) ∧
    (insertElement list index x).head =
      list.head.take index.toNat ++ x :: list.head.drop index.toNat := by
  have hhead := insertElement_head list index x h0 hle
  have hn : index.toNat ≤ list.head.length := by
    rw [length_eq] at hle
    omega
  have hlen : length (insertElement list index x) = length list + 1 := by
    rw [length_eq, length_eq, hhead]
    simp [hn]
    omega
  refine ⟨⟨list.head.drop index.toNat, ?_⟩, hlen, ?_, ?_, hhead⟩
  · rw [findByIndex_eq, if_pos (by rw [hlen]; omega), hhead]
    have e : (list.head.take index.toNat).length = index.toNat := by simp [hn]
    exact List.drop_left' e
  · intro j hj
    rw [hhead]
    exact insert_getElem?_lt list.head index.toNat x j hn hj
  · intro j hj
    rw [hhead]
    exact insert_getElem?_ge list.head index.toNat x j hn hj

/-- C9 at the matrix of the driver: the row `[0, 0, 0]` inserted at position 1,
and at position 0. -/
theorem insertElement_in_range_witness :
    (insertElement nestedlist 1 (.list testlist)).head =
      [.list intlist1, .list testlist, .list intlist2, .list intlist3] ∧
    (∃ next, findByIndex (insertElement nestedlist 0 (.list testlist)) 0 =
      .list testlist :: next) ∧
    ((∃ next, findByIndex (insertElement nestedlist 1 (.list testlist)) 1 =
        .list testlist :: next) ∧
      length (insertElement nestedlist 1 (.list testlist)) = length nestedlist + 1 ∧
      (∀ j, j < (1 : Int).toNat →
        (insertElement nestedlist 1 (.list testlist)).head[j]? = nestedlist.head[j]?) ∧
      (∀ j, (1 : Int).toNat ≤ j →
        (insertElement nestedlist 1 (.list testlist)).head[j + 1]? = nestedlist.head[j]?) ∧
      (insertElement nestedlist 1 (.list testlist)).head =
        nestedlist.head.take (1 : Int).toNat ++
          .list testlist :: nestedlist.head.drop (1 : Int).toNat) :=
  ⟨by rfl, (insertElement_in_range nestedlist 0 (.list testlist) (by decide) (by decide)).1,
   insertElement_in_range nestedlist 1 (.list testlist) (by decide) (by decide)⟩

/-- C10: for an index below 0 or above `length(list)`, `insertElement` does
exactly what `addFront` does: `x` becomes the element at position 0 and the
former elements follow in their order. No outcome of `insertElement` is an
error. -/
theorem insertElement_out_of_range (list : CList) (index : Int) (x : Data)
    (h : index < 0 ∨ length list < index) :
    insertElement list index x = (addFront list x).1 ∧
    (insertElement list index x).head = x :: list.head := by
  have hi : ¬ index = 0 := by
    rcases h with h | h
    · omega
    · rw [length_eq] at h
      omega
  have hfind : findByIndex list (index - 1) = [] := by
    rw [findByIndex_eq, if_neg (by omega)]
  have e : insertElement list index x = (addFront list x).1 := by
    simp only [insertElement, if_neg hi, hfind, addAfter, addFront]
  exact ⟨e, by rw [e]; simp [addFront, head_setHead]⟩

/-- C10 at the matrix of the driver, with the indices -1 and 4. -/
theorem insertElement_out_of_range_witness :
    (insertElement nestedlist (-1) (.list testlist) = (addFront nestedlist (.list testlist)).1 ∧
      (insertElement nestedlist (-1) (.list testlist)).head =
        .list testlist :: nestedlist.head) ∧
    (insertElement nestedlist 4 (.list testlist) = (addFront nestedlist (.list testlist)).1 ∧
      (insertElement nestedlist 4 (.list testlist)).head =
        .list testlist :: nestedlist.head) :=
  ⟨insertElement_out_of_range nestedlist (-1) (.list testlist) (by decide),
   insertElement_out_of_range nestedlist 4 (.list testlist) (by decide)⟩

/-! ## Assignment -/

theorem setHead_setHead (list : CList) (a b : NodePtr) :
    (list.setHead a).setHead b = list.setHead b := by
  cases list with
  | mk h s d => rfl

theorem setHead_head (list : CList) : list.setHead list.head = list := by
  cases list with
  | mk h s d => rfl

theorem depth_setHead (list : CList) (head : NodePtr) :
    (list.setHead head).depth = list.depth := by
  cases list with
  | mk h s d => rfl

theorem size_of_type_setHead (list : CList) (head : NodePtr) :
    (list.setHead head).size_of_type = list.size_of_type := by
  cases list with
  | mk h s d => rfl

theorem assignElement_eq (list : CList) (i : Int) (x : Data) :
    assignElement list i x =
      if 0 ≤ i ∧ i < length list then .ok (list.setHead (list.head.set i.toNat x))
      else .error .nullDeref := by
  by_cases h : 0 ≤ i ∧ i < length list
  · have hlt : i.toNat < list.head.length := by
      have := h.2
      rw [length_eq] at this
      omega
    have hfind : findByIndex list i = list.head[i.toNat] :: list.head.drop (i.toNat + 1) := by
      rw [findByIndex_eq, if_pos h]
      exact List.drop_eq_getElem_cons hlt
    have hstore := storeNode_drop list.head i.toNat (x :: list.head.drop (i.toNat + 1))
      (le_of_lt hlt)
    rw [List.drop_eq_getElem_cons hlt] at hstore
    rw [if_pos h]
    simp only [assignElement, hfind, hstore]
    rw [List.set_eq_take_append_cons_drop, if_pos hlt]
  · have hfind : findByIndex list i = [] := by
      rw [findByIndex_eq, if_neg h]
    rw [if_neg h]
    simp only [assignElement, hfind]

/-- C11: for a valid index `i`, after `assignElement(list, i, x)` the element at
position `i` is `x`, every other position holds the data word it held before, and
the length and the depth of the list are unchanged. -/
theorem assignElement_valid (list : CList) (i : Int) (x : Data)
    (h0 : 0 ≤ i) (hlt : i < length list) :
    ∃ after, assignElement list i x = .ok after ∧
      after.head[i.toNat]? = some x ∧
      (∀ j, j ≠ i.toNat → after.head[j]? = list.head[j]?) ∧
      length after = length list ∧
      after.depth = list.depth := by
  have hlen : i.toNat < list.head.length := by
    rw [length_eq] at hlt
    omega
  refine ⟨list.setHead (list.head.set i.toNat x), ?_, ?_, ?_, ?_, ?_⟩
  · rw [assignElement_eq, if_pos ⟨h0, hlt⟩]
  · rw [head_setHead]
    exact List.getElem?_set_self hlen
  · intro j hj
    rw [head_setHead]
    exact List.getElem?_set_ne (Ne.symm hj)
  · rw [length_setHead, length_eq, List.length_set]
  · exact depth_setHead _ _

/-- C11 at the matrix of the driver: the element at position 1 is set to the row
`[0, 0, 0]`. -/
theorem assignElement_valid_witness :
    assignElement nestedlist 1 (.list testlist) =
      .ok (.mk [.list intlist1, .list testlist, .list intlist3] 8 2) ∧
    ∃ after, assignElement nestedlist 1 (.list testlist) = .ok after ∧
      after.head[(1 : Int).toNat]? = some (.list testlist) ∧
      (∀ j, j ≠ (1 : Int).toNat → after.head[j]? = nestedlist.head[j]?) ∧
      length after = length nestedlist ∧
      after.depth = nestedlist.depth :=
  ⟨by rfl, assignElement_valid nestedlist 1 (.list testlist) (by decide) (by decide)⟩

/-- C12: `assignElement(list, index, x)` dereferences the absent node exactly when
`index < 0` or `index >= length(list)`, and it completes, giving a list, exactly
when `0 <= index < length(list)`. -/
theorem assignElement_fault_iff (list : CList) (index : Int) (x : Data) :
    (assignElement list index x = .error .nullDeref ↔ (index < 0 ∨ length list ≤ index)) ∧
    ((∃ after, assignElement list index x = .ok after) ↔
      (0 ≤ index ∧ index < length list)) := by
  rw [assignElement_eq]
  by_cases h : 0 ≤ index ∧ index < length list
  · rw [if_pos h]
    refine ⟨⟨fun hc => ?_, fun hc => ?_⟩, ⟨fun _ => h, fun _ => ⟨_, rfl⟩⟩⟩
    · cases hc
    · omega
  · rw [if_neg h]
    refine ⟨⟨fun _ => by omega, fun _ => rfl⟩, ⟨fun hc => ?_, fun hc => absurd hc h⟩⟩
    obtain ⟨after, hafter⟩ := hc
    cases hafter

/-- C12 at the matrix of the driver: index 3 faults, index 2 completes. -/
theorem assignElement_fault_iff_witness :
    assignElement nestedlist 3 (.list testlist) = .error .nullDeref ∧
    ∃ after, assignElement nestedlist 2 (.list testlist) = .ok after :=
  ⟨(assignElement_fault_iff nestedlist 3 (.list testlist)).1.mpr (by decide),
   (assignElement_fault_iff nestedlist 2 (.list testlist)).2.mpr (by decide)⟩

/-! ## Reversal -/

theorem reverseListLoop_eq : ∀ cur prv : NodePtr, reverseListLoop cur prv = cur.reverse ++ prv := by
  intro cur
  induction cur with
  | nil => intro prv; simp [reverseListLoop]
  | cons d nxt ih => intro prv; simp [reverseListLoop, ih]

theorem reverseList_eq (list : CList) : reverseList list = list.setHead list.head.reverse := by
  simp [reverseList, reverseListLoop_eq]

/-- C13: `reverseList` applied twice gives back the list: the same chain of data
words in the same order (and the same size hint and depth). -/
theorem reverseList_involutive (list : CList) : reverseList (reverseList list) = list := by
  rw [reverseList_eq, reverseList_eq, head_setHead, List.reverse_reverse, setHead_setHead,
    setHead_head]

/-- C13 at the matrix of the driver. -/
theorem reverseList_involutive_witness :
    (reverseList nestedlist).head = [.list intlist3, .list intlist2, .list intlist1] ∧
    reverseList (reverseList nestedlist) = nestedlist :=
  ⟨by rfl, reverseList_involutive nestedlist⟩

/-! ## Removal from the front -/

/-- C15: on a non-empty list `popFront` returns the data word of the head element
and leaves the elements that followed it, in their order, the length being smaller
by 1; on an empty list it returns 0 and the list stays empty. -/
theorem popFront_spec (list : CList) :
    (∀ data next, list.head = data :: next →
      popFront list = (data, list.setHead next) ∧
      (popFront list).2.head = list.head.drop 1 ∧
      length (popFront list).2 = length list - 1) ∧
    (list.head = [] → popFront list = (.word 0, list) ∧ (popFront list).2.head = []) := by
  constructor
  · intro data next h
    have hp : popFront list = (data, list.setHead next) := by
      simp only [popFront, h]
    refine ⟨hp, ?_, ?_⟩
    · rw [hp, head_setHead, h]
      rfl
    · rw [hp, length_setHead, length_eq, h]
      simp
  · intro h
    have hp : popFront list = (.word 0, list) := by
      simp only [popFront, h]
    exact ⟨hp, by rw [hp]; exact h⟩

/-- C15 at the matrix of the driver and at an empty list. -/
theorem popFront_spec_witness :
    (popFront nestedlist = (.list intlist1, nestedlist.setHead [.list intlist2, .list intlist3]) ∧
      (popFront nestedlist).2.head = nestedlist.head.drop 1 ∧
      length (popFront nestedlist).2 = length nestedlist - 1) ∧
    (popFront (initList 8 2) = (.word 0, initList 8 2) ∧ (popFront (initList 8 2)).2.head = []) :=
  ⟨(popFront_spec nestedlist).1 (.list intlist1) [.list intlist2, .list intlist3] rfl,
   (popFront_spec (initList 8 2)).2 rfl⟩

theorem removeAllNodes_eq : ∀ (n : Nat) (list : CList), list.head.length = n →
    removeAllNodes list = list.setHead [] := by
  intro n
  induction n with
  | zero =>
    intro list hn
    cases list with
    | mk head size depth =>
      simp only [CList.head] at hn
      have hnil : head = [] := List.length_eq_zero.mp hn
      subst hnil
      rw [removeAllNodes]
      rfl
  | succ n ih =>
    intro list hn
    cases list with
    | mk head size depth =>
      simp only [CList.head] at hn
      match head, hn with
      | data :: next, hn =>
        rw [removeAllNodes]
        have hp : (popFront (CList.mk (data :: next) size depth)).2 = CList.mk next size depth := rfl
        simp only [CList.head, hp]
        rw [ih (CList.mk next size depth) (by simpa using hn)]
        rfl

/-- C17: `removeAllNodes` terminates on every list (the function is total) and
leaves it empty: the head is absent and the length is 0, and the depth (and the
size hint) are unchanged. -/
theorem removeAllNodes_spec (list : CList) :
    (removeAllNodes list).head = [] ∧ length (removeAllNodes list) = 0 ∧
    (removeAllNodes list).depth = list.depth ∧
    (removeAllNodes list).size_of_type = list.size_of_type := by
  rw [removeAllNodes_eq list.head.length list rfl]
  exact ⟨head_setHead _ _, by rw [length_setHead]; rfl, depth_setHead _ _,
    size_of_type_setHead _ _⟩

/-- C17 at the matrix of the driver. -/
theorem removeAllNodes_spec_witness :
    (removeAllNodes nestedlist).head = [] ∧ length (removeAllNodes nestedlist) = 0 ∧
    (removeAllNodes nestedlist).depth = 2 ∧ (removeAllNodes nestedlist).size_of_type = 8 :=
  removeAllNodes_spec nestedlist

/-! ## Insertion after a node -/

theorem addAfter_node_head (list : CList) (k : Nat) (x : Data) (hk : k < list.head.length) :
    (addAfter list (list.head.drop k) x).1.head =
      list.head.take (k + 1) ++ x :: list.head.drop (k + 1) ∧
    (addAfter list (list.head.drop k) x).2 = x :: list.head.drop (k + 1) := by
  obtain ⟨_, htake, _⟩ := take_succ_of_drop list.head k list.head[k] (list.head.drop (k + 1))
    (List.drop_eq_getElem_cons hk)
  have hstore := storeNode_drop list.head k (list.head[k] :: x :: list.head.drop (k + 1))
    (le_of_lt hk)
  rw [List.drop_eq_getElem_cons hk] at hstore ⊢
  constructor
  · simp only [addAfter, head_setHead, hstore]
    rw [htake, List.append_assoc]
    rfl
  · simp only [addAfter]

/-- C16: with `prevNode` absent, `addAfter` produces what `addFront` produces;
with `prevNode` the node at position `k`, the new element `x` sits at position
`k + 1`, right after the element of `prevNode`, the elements up to position `k`
keep their positions and the later ones follow `x` in their order. -/
theorem addAfter_spec (list : CList) (x : Data) :
    addAfter list [] x = addFront list x ∧
    ∀ k, k < list.head.length →
      (addAfter list (list.head.drop k) x).1.head =
        list.head.take (k + 1) ++ x :: list.head.drop (k + 1) ∧
      (addAfter list (list.head.drop k) x).1.head[k + 1]? = some x ∧
      (∀ j, j ≤ k → (addAfter list (list.head.drop k) x).1.head[j]? = list.head[j]?) ∧
      (∀ j, k + 1 ≤ j →
        (addAfter list (list.head.drop k) x).1.head[j + 1]? = list.head[j]?) := by
  refine ⟨rfl, ?_⟩
  intro k hk
  have hhead := (addAfter_node_head list k x hk).1
  have hn : k + 1 ≤ list.head.length := hk
  have hlen : (list.head.take (k + 1)).length = k + 1 := by simp [hn]
  refine ⟨hhead, ?_, ?_, ?_⟩
  · rw [hhead, List.getElem?_append_right (by omega), hlen]
    simp
  · intro j hj
    rw [hhead]
    exact insert_getElem?_lt list.head (k + 1) x j hn (by omega)
  · intro j hj
    rw [hhead]
    exact insert_getElem?_ge list.head (k + 1) x j hn hj

/-- C16 at the matrix of the driver: the row `[0, 0, 0]` added after the node at
position 1, and added with no predecessor. -/
theorem addAfter_spec_witness :
    addAfter nestedlist [] (.list testlist) = addFront nestedlist (.list testlist) ∧
    (addAfter nestedlist (nestedlist.head.drop 1) (.list testlist)).1.head =
      [.list intlist1, .list intlist2, .list testlist, .list intlist3] ∧
    ((addAfter nestedlist (nestedlist.head.drop 1) (.list testlist)).1.head =
        nestedlist.head.take (1 + 1) ++ .list testlist :: nestedlist.head.drop (1 + 1) ∧
      (addAfter nestedlist (nestedlist.head.drop 1) (.list testlist)).1.head[1 + 1]? =
        some (.list testlist) ∧
      (∀ j, j ≤ 1 →
        (addAfter nestedlist (nestedlist.head.drop 1) (.list testlist)).1.head[j]? =
          nestedlist.head[j]?) ∧
      (∀ j, 1 + 1 ≤ j →
        (addAfter nestedlist (nestedlist.head.drop 1) (.list testlist)).1.head[j + 1]? =
          nestedlist.head[j]?)) :=
  ⟨(addAfter_spec nestedlist (.list testlist)).1, by rfl,
   (addAfter_spec nestedlist (.list testlist)).2 1 (by decide)⟩

/-! ## Membership -/

/-- C18: `contains` returns 1 when `findNode` returns a node and 0 when it returns
`NULL`; on a well-formed list with a fitting needle it returns 1 exactly when some
element matches the needle, and 0 exactly when none does. -/
theorem contains_spec (compar : Data → Data → Int) (list : CList) (dataSought : Data)
    (hwf : wellFormed list = true) (hfit : needleFits list dataSought = true) :
    (∀ data next, findNode list dataSought compar = .ok (data :: next) →
      contains list dataSought compar = .ok 1) ∧
    (findNode list dataSought compar = .ok [] → contains list dataSought compar = .ok 0) ∧
    (contains list dataSought compar = .ok 1 ↔
      ∃ d ∈ list.head, elementMatches compar list.depth dataSought d = true) ∧
    (contains list dataSought compar = .ok 0 ↔
      ∀ d ∈ list.head, elementMatches compar list.depth dataSought d = false) := by
  have hfind := findNode_eq_drop compar list dataSought hwf hfit
  refine ⟨fun data next h => by simp only [contains, h],
    fun h => by simp only [contains, h], ?_, ?_⟩
  · constructor
    · intro hc
      by_contra hnone
      have hall : ∀ d ∈ list.head, elementMatches compar list.depth dataSought d = false := by
        intro d hd
        cases hm : elementMatches compar list.depth dataSought d with
        | false => rfl
        | true => exact absurd ⟨d, hd, hm⟩ hnone
      rw [List.findIdx_eq_length_of_false hall, List.drop_length] at hfind
      simp [contains, hfind] at hc
    · intro hex
      have hlt := List.findIdx_lt_length_of_exists hex
      rw [List.drop_eq_getElem_cons hlt] at hfind
      simp only [contains, hfind]
  · constructor
    · intro hc d hd
      cases hm : elementMatches compar list.depth dataSought d with
      | false => rfl
      | true =>
        have hlt := List.findIdx_lt_length_of_exists ⟨d, hd, hm⟩
        rw [List.drop_eq_getElem_cons hlt] at hfind
        simp only [contains, hfind] at hc
        exact absurd hc (by decide)
    · intro hall
      rw [List.findIdx_eq_length_of_false hall, List.drop_length] at hfind
      simp only [contains, hfind]

/-- C18 at the matrix of the driver: it contains the row `[10, 20, 30]` and does
not contain the row `[0, 0, 0]`; and `containsInt` on the flat `intlist` finds 7
and does not find -7. -/
theorem contains_spec_witness :
    contains nestedlist (.list intlist2) (compareInts driverMem) = .ok 1 ∧
    contains nestedlist (.list testlist) (compareInts driverMem) = .ok 0 ∧
    (contains nestedlist (.list intlist2) (compareInts driverMem) = .ok 1 ↔
      ∃ d ∈ nestedlist.head,
        elementMatches (compareInts driverMem) nestedlist.depth (.list intlist2) d = true) ∧
    MyList.containsInt MyList.flatMem MyList.intlist (.word 608) = true ∧
    MyList.containsInt MyList.flatMem MyList.intlist (.word 612) = false :=
  ⟨by decide, by decide,
   (contains_spec (compareInts driverMem) nestedlist (.list intlist2)
     (by decide) (by decide)).2.2.1, by decide, by decide⟩

/-! ## Array literals -/

theorem addFrontEach_head : ∀ (xs : List Data) (list : CList),
    (addFrontEach list xs).head = xs.reverse ++ list.head := by
  intro xs
  induction xs with
  | nil => intro list; simp [addFrontEach]
  | cons x rest ih =>
    intro list
    simp [addFrontEach, ih, addFront, head_setHead]

theorem storeNode_cons (head node : NodePtr) (d : Data) (rest : NodePtr) :
    ∃ e r, storeNode head node (d :: rest) = e :: r := by
  unfold storeNode
  cases List.take (head.length - node.length) head with
  | nil => exact ⟨d, rest, rfl⟩
  | cons e r => exact ⟨e, r ++ d :: rest, rfl⟩

theorem addFront_head (list : CList) (x : Data) : (addFront list x).1.head = x :: list.head := by
  simp [addFront, head_setHead]

theorem addAfter_head_cons (list : CList) (prevNode : NodePtr) (x : Data) :
    ∃ e r, (addAfter list prevNode x).1.head = e :: r := by
  cases prevNode with
  | nil => exact ⟨x, list.head, by simp [addAfter, head_setHead]⟩
  | cons d rest =>
    obtain ⟨e, r, h⟩ := storeNode_cons list.head (d :: rest) d (x :: rest)
    exact ⟨e, r, by simp [addAfter, head_setHead, h]⟩

theorem insertElement_head_cons (list : CList) (index : Int) (x : Data) :
    ∃ e r, (insertElement list index x).head = e :: r := by
  by_cases hi : index = 0
  · exact ⟨x, list.head, by simp [insertElement, hi, addFront_head]⟩
  · obtain ⟨e, r, h⟩ := addAfter_head_cons list (findByIndex list (index - 1)) x
    exact ⟨e, r, by simp only [insertElement, if_neg hi, h]⟩

theorem length_pos_of_head_cons (list : CList) (e : Data) (r : NodePtr)
    (h : list.head = e :: r) : 1 ≤ length list := by
  rw [length_eq, h]
  simp

/-- The chain after `addFront` with each element of `xs` in turn on an empty list
and one `reverseList` is `xs`. -/
theorem addFrontEach_reverseList_head (xs : List Data) (size_of_type : Nat) (depth : Int) :
    (reverseList (addFrontEach (initList size_of_type depth) xs)).head = xs := by
  rw [reverseList_eq, head_setHead, addFrontEach_head]
  simp [initList, CList.head]

/-! ## The zero return value -/

/-- C21: there is a non-empty list and a valid index for which `removeNode`
removes a node (the length drops by 1) and returns 0, the value that `removeNode`
and `popFront` return on an empty list: the return value does not tell whether
an element was removed. -/
theorem removeNode_zero_ambiguous :
    ∃ (list after : CList) (i : Int),
      list.head ≠ [] ∧ 0 ≤ i ∧ i < length list ∧
      removeNode list i = .ok (.word 0, after) ∧
      length after = length list - 1 ∧
      removeNode (initList 4 1) i = .ok (.word 0, initList 4 1) ∧
      popFront (initList 4 1) = (.word 0, initList 4 1) :=
  ⟨zeroFirstList, .mk [.word 104] 4 1, 0, by simp [zeroFirstList, CList.head], by decide,
    by decide, by rfl, by decide, by rfl, by rfl⟩

/-! ## Lists of depth below 1 -/

/-- C25: a list whose depth is below 1 compares unequal to every list, itself
included: `compareLists` returns -1, without calling the comparator. `initList`
stores any depth it is given, so such lists can be created. -/
theorem compareLists_depth_below_one (compar : Data → Data → Int) (l m : CList)
    (hd : l.depth ≤ 0) :
    (compareLists compar l m).ret = .ok (-1) ∧ (compareLists compar l m).calls = [] ∧
    (compareLists compar l l).ret = .ok (-1) ∧
    ∀ size_of_type depth, (initList size_of_type depth).depth = depth := by
  have key : ∀ m : CList, compareLists compar l m = ⟨.ok (-1), []⟩ := by
    intro m
    cases l with
    | mk heada sizea deptha =>
      cases m with
      | mk headb sizeb depthb =>
        simp only [CList.depth] at hd
        have h1 : ¬ deptha > 1 := by omega
        have h2 : ¬ deptha = 1 := by omega
        simp only [compareLists, h1, h2, if_false, ite_self]
  exact ⟨by rw [key m], by rw [key m], by rw [key l], fun _ _ => rfl⟩

/-- C25 at an empty list and at the matrix rows held in a list of depth 0. -/
theorem compareLists_depth_below_one_witness :
    (compareLists (compareInts driverMem) (initList 4 0) (initList 4 0)).ret = .ok (-1) ∧
    ((compareLists (compareInts driverMem) (.mk nestedlist.head 8 0) nestedlist).ret = .ok (-1) ∧
      (compareLists (compareInts driverMem) (.mk nestedlist.head 8 0) nestedlist).calls = [] ∧
      (compareLists (compareInts driverMem) (.mk nestedlist.head 8 0)
        (.mk nestedlist.head 8 0)).ret = .ok (-1) ∧
      ∀ size_of_type depth, (initList size_of_type depth).depth = depth) :=
  ⟨(compareLists_depth_below_one (compareInts driverMem) (initList 4 0) (initList 4 0)
      (by decide)).1,
   compareLists_depth_below_one (compareInts driverMem) (.mk nestedlist.head 8 0) nestedlist
      (by decide)⟩

/-! ## The comparator calls of a comparison -/

theorem compareListsLeaves_calls (compar : Data → Data → Int) :
    ∀ (a b : NodePtr) (total : Int), a.length = b.length →
      (compareListsLeaves compar a b total).calls = List.zip a b := by
  intro a
  induction a with
  | nil => intro b total _; simp [compareListsLeaves]
  | cons da nexta ih =>
    intro b total hlen
    cases b with
    | nil => simp at hlen
    | cons db nextb =>
      simp only [List.length_cons, add_left_inj] at hlen
      simp [compareListsLeaves, ih nextb _ hlen]

theorem compareListsNested_calls (compar : Data → Data → Int) (d : Int) :
    ∀ (a b : NodePtr) (total : Int), a.length = b.length →
      wellFormedElems d a = true → wellFormedElems d b = true →
      (compareListsNested compar a b total).calls =
        (List.zip a b).flatMap (compareListsCallsAt compar) := by
  intro a
  induction a with
  | nil => intro b total _ _ _; simp [compareListsNested]
  | cons da nexta ih =>
    intro b total hlen hwa hwb
    cases b with
    | nil => simp at hlen
    | cons db nextb =>
      simp only [List.length_cons, add_left_inj] at hlen
      cases da with
      | word w => simp [wellFormedElems] at hwa
      | list la =>
        cases db with
        | word w => simp [wellFormedElems] at hwb
        | list lb =>
          simp only [wellFormedElems, Bool.and_eq_true, decide_eq_true_eq] at hwa hwb
          obtain ⟨r, hr, _⟩ := compareLists_defined compar la lb (by rw [hwa.1.1, hwb.1.1])
            hwa.1.2 hwb.1.2
          simp [compareListsNested, hr, compareListsCallsAt, ih nextb _ hlen hwa.2 hwb.2]

/-- C23: no short-circuit. At depth 1, on lists of equal length, the comparator is
invoked on the corresponding pairs of elements, each exactly once and in
head-to-tail order, whatever the earlier results were. At depth greater than 1,
on well-formed lists of one depth and equal length, `compareLists` is called on
every pair of nested lists in turn: the calls made are those of the first pair,
then those of the second, and so on. -/
theorem compareLists_visits_every_pair (compar : Data → Data → Int) (a b : CList)
    (hlen : length a = length b) :
    (a.depth = 1 → (compareLists compar a b).calls = List.zip a.head b.head) ∧
    (a.depth > 1 → a.depth = b.depth → wellFormed a = true → wellFormed b = true →
      (compareLists compar a b).calls =
        (List.zip a.head b.head).flatMap (compareListsCallsAt compar)) := by
  cases a with
  | mk heada sizea deptha =>
    cases b with
    | mk headb sizeb depthb =>
      have hl : heada.length = headb.length := by
        rw [length_eq, length_eq] at hlen
        exact_mod_cast hlen
      constructor
      · intro hd
        simp only [CList.depth] at hd
        subst hd
        simp [compareLists, hlen, CList.head, compareListsLeaves_calls compar heada headb 0 hl]
      · intro hgt hd hwa hwb
        simp only [CList.depth] at hgt hd
        subst hd
        have hcalls := compareListsNested_calls compar (deptha - 1) heada headb 0 hl
          (wellFormed_elems heada sizea deptha hwa hgt)
          (wellFormed_elems headb sizeb deptha hwb hgt)
        simp [compareLists, hlen, hgt, CList.head, hcalls]

/-- C23 at the rows `[1, 2, 3]` and `[10, 20, 30]` of the driver, unequal from the
first pair on, and at the matrix against the matrix with its first two rows
exchanged. -/
theorem compareLists_visits_every_pair_witness :
    (compareLists (compareInts driverMem) intlist1 intlist2).ret = .ok (-1) ∧
    (compareLists (compareInts driverMem) intlist1 intlist2).calls =
      [(.word 100, .word 112), (.word 104, .word 116), (.word 108, .word 120)] ∧
    (compareLists (compareInts driverMem) intlist1 intlist2).calls =
      List.zip intlist1.head intlist2.head ∧
    (compareLists (compareInts driverMem) nestedlist
        (.mk [.list intlist2, .list intlist1, .list intlist3] 8 2)).calls =
      (List.zip nestedlist.head
        (CList.mk [.list intlist2, .list intlist1, .list intlist3] 8 2).head).flatMap
          (compareListsCallsAt (compareInts driverMem)) :=
  ⟨by decide, by rfl,
   (compareLists_visits_every_pair (compareInts driverMem) intlist1 intlist2 (by decide)).1
     (by decide),
   (compareLists_visits_every_pair (compareInts driverMem) nestedlist
     (.mk [.list intlist2, .list intlist1, .list intlist3] 8 2) (by decide)).2
     (by decide) (by decide) (by decide) (by decide)⟩

/-! ## Symmetry of the comparison -/

theorem absInt_symm_of_tristate (compar : Data → Data → Int)
    (htri : ∀ x y, compar x y = -1 ∨ compar x y = 0 ∨ compar x y = 1)
    (hzero : ∀ x y, compar x y = 0 ↔ compar y x = 0) (x y : Data) :
    absInt (compar x y) = absInt (compar y x) := by
  obtain ⟨hz1, hn1⟩ := absInt_tristate (compar x y) (htri x y)
  obtain ⟨hz2, hn2⟩ := absInt_tristate (compar y x) (htri y x)
  by_cases h : compar x y = 0
  · rw [hz1 h, hz2 ((hzero x y).mp h)]
  · rw [hn1 h, hn2 (fun h2 => h ((hzero x y).mpr h2))]

theorem compareListsLeaves_symm (compar : Data → Data → Int)
    (habs : ∀ x y, absInt (compar x y) = absInt (compar y x)) :
    ∀ (a b : NodePtr) (total : Int), a.length = b.length →
      (compareListsLeaves compar a b total).ret = (compareListsLeaves compar b a total).ret := by
  intro a
  induction a with
  | nil =>
    intro b total hlen
    have hb : b = [] := List.length_eq_zero.mp hlen.symm
    subst hb
    rfl
  | cons da nexta ih =>
    intro b total hlen
    cases b with
    | nil => simp at hlen
    | cons db nextb =>
      simp only [List.length_cons, add_left_inj] at hlen
      simp only [compareListsLeaves, habs db da]
      exact ih nextb _ hlen

theorem compareListsNested_symm (compar : Data → Data → Int) (d : Int)
    (hsym : ∀ la lb : CList, la.depth = d → lb.depth = d → wellFormed la = true →
      wellFormed lb = true → (compareLists compar la lb).ret = (compareLists compar lb la).ret) :
    ∀ (a b : NodePtr) (total : Int), a.length = b.length →
      wellFormedElems d a = true → wellFormedElems d b = true →
      (compareListsNested compar a b total).ret = (compareListsNested compar b a total).ret := by
  intro a
  induction a with
  | nil =>
    intro b total hlen _ _
    have hb : b = [] := List.length_eq_zero.mp hlen.symm
    subst hb
    rfl
  | cons da nexta ih =>
    intro b total hlen hwa hwb
    cases b with
    | nil => simp at hlen
    | cons db nextb =>
      simp only [List.length_cons, add_left_inj] at hlen
      cases da with
      | word w => simp [wellFormedElems] at hwa
      | list la =>
        cases db with
        | word w => simp [wellFormedElems] at hwb
        | list lb =>
          simp only [wellFormedElems, Bool.and_eq_true, decide_eq_true_eq] at hwa hwb
          have hpair := hsym la lb hwa.1.1 hwb.1.1 hwa.1.2 hwb.1.2
          obtain ⟨r, hr, _⟩ := compareLists_defined compar la lb (by rw [hwa.1.1, hwb.1.1])
            hwa.1.2 hwb.1.2
          have hr2 : (compareLists compar lb la).ret = .ok r := by rw [← hpair, hr]
          simp only [compareListsNested, hr, hr2]
          exact ih nextb _ hlen hwa.2 hwb.2

theorem compareLists_symm_depth (compar : Data → Data → Int)
    (habs : ∀ x y, absInt (compar x y) = absInt (compar y x)) :
    ∀ (n : Nat) (a b : CList), a.depth = (n : Int) + 1 → b.depth = (n : Int) + 1 →
      wellFormed a = true → wellFormed b = true →
      (compareLists compar a b).ret = (compareLists compar b a).ret := by
  intro n
  induction n with
  | zero =>
    intro a b hda hdb _ _
    cases a with
    | mk heada sizea deptha =>
      cases b with
      | mk headb sizeb depthb =>
        simp only [CList.depth] at hda hdb
        subst hda
        subst hdb
        by_cases hlen : heada.length = headb.length
        · have hloop := compareListsLeaves_symm compar habs heada headb 0 hlen
          simp [compareLists, length_eq, CList.head, hlen, hloop]
        · have hlen2 : ¬ headb.length = heada.length := fun h => hlen h.symm
          simp [compareLists, length_eq, CList.head, hlen, hlen2]
  | succ n ih =>
    intro a b hda hdb hwa hwb
    cases a with
    | mk heada sizea deptha =>
      cases b with
      | mk headb sizeb depthb =>
        simp only [CList.depth] at hda hdb
        subst hda
        subst hdb
        have hgt : ((n + 1 : Nat) : Int) + 1 > 1 := by omega
        have e : ((n + 1 : Nat) : Int) + 1 - 1 = (n : Int) + 1 := by push_cast; ring
        have hea := wellFormed_elems heada sizea _ hwa hgt
        have heb := wellFormed_elems headb sizeb _ hwb hgt
        rw [e] at hea heb
        by_cases hlen : heada.length = headb.length
        · have hloop := compareListsNested_symm compar ((n : Int) + 1)
            (fun la lb hla hlb hwla hwlb => ih la lb hla hlb hwla hwlb)
            heada headb 0 hlen hea heb
          simp [compareLists, length_eq, CList.head, hlen, hgt, hloop]
        · have hlen2 : ¬ headb.length = heada.length := fun h => hlen h.symm
          simp [compareLists, length_eq, CList.head, hlen, hlen2]

/-- C24: symmetry of structural equality. For well-formed lists `a` and `b` of the
same depth and a comparator with values in `{-1, 0, 1}` that returns 0 on
`(x, y)` exactly when it returns 0 on `(y, x)`, `compareLists(a, b)` and
`compareLists(b, a)` return the same value. -/
theorem compareLists_symm (compar : Data → Data → Int) (a b : CList)
    (hd : a.depth = b.depth) (hwa : wellFormed a = true) (hwb : wellFormed b = true)
    (htri : ∀ x y, compar x y = -1 ∨ compar x y = 0 ∨ compar x y = 1)
    (hzero : ∀ x y, compar x y = 0 ↔ compar y x = 0) :
    (compareLists compar a b).ret = (compareLists compar b a).ret := by
  have h1 := wellFormed_depth_pos a hwa
  refine compareLists_symm_depth compar (absInt_symm_of_tristate compar htri hzero)
    (a.depth - 1).toNat a b ?_ ?_ hwa hwb <;> omega

theorem compareInts_tristate (mem : Data → Int) (x y : Data) :
    compareInts mem x y = -1 ∨ compareInts mem x y = 0 ∨ compareInts mem x y = 1 := by
  unfold compareInts
  split
  · exact Or.inl rfl
  · split
    · exact Or.inr (Or.inr rfl)
    · exact Or.inr (Or.inl rfl)

theorem compareInts_zero_symm (mem : Data → Int) (x y : Data) :
    compareInts mem x y = 0 ↔ compareInts mem y x = 0 := by
  unfold compareInts
  constructor <;> intro h <;> split_ifs at h ⊢ <;> first | rfl | omega

/-- C24 at the driver, with `compareInts`: the rows `[1, 2, 3]` and
`[10, 20, 30]`, and the matrix against itself. -/
theorem compareLists_symm_witness :
    (compareLists (compareInts driverMem) intlist1 intlist2).ret =
      (compareLists (compareInts driverMem) intlist2 intlist1).ret ∧
    (compareLists (compareInts driverMem) nestedlist
        (.mk [.list intlist2, .list intlist1, .list intlist3] 8 2)).ret =
      (compareLists (compareInts driverMem)
        (.mk [.list intlist2, .list intlist1, .list intlist3] 8 2) nestedlist).ret :=
  ⟨compareLists_symm (compareInts driverMem) intlist1 intlist2 (by decide) (by decide)
     (by decide) (compareInts_tristate driverMem) (compareInts_zero_symm driverMem),
   compareLists_symm (compareInts driverMem) nestedlist
     (.mk [.list intlist2, .list intlist1, .list intlist3] 8 2) (by decide) (by decide)
     (by decide) (compareInts_tristate driverMem) (compareInts_zero_symm driverMem)⟩

end MyList3D

/-! # Theorems about the flat list -/

namespace MyList

open MyList3D (Data NodePtr Fault storeNode)

theorem flat_lengthLoop_eq (chain : NodePtr) (count : Int) :
    lengthLoop chain count = count + (chain.length : Int) := by
  induction chain generalizing count with
  | nil => simp [lengthLoop]
  | cons d next ih => simp [lengthLoop, ih]; ring

theorem flat_length_eq (list : CList) : length list = (list.head.length : Int) := by
  simp [length, flat_lengthLoop_eq]

theorem flat_reverseListLoop_eq : ∀ cur prv : NodePtr, reverseListLoop cur prv = cur.reverse ++ prv := by
  intro cur
  induction cur with
  | nil => intro prv; simp [reverseListLoop]
  | cons d nxt ih => intro prv; simp [reverseListLoop, ih]

theorem flat_reverseList_head (list : CList) : (reverseList list).head = list.head.reverse := by
  simp [reverseList, flat_reverseListLoop_eq]

theorem createIntArrayLiteralLoop_head (arr : Nat) :
    ∀ (remaining i : Nat) (list : CList),
      (createIntArrayLiteralLoop arr remaining i list).head =
        ((List.range remaining).map (fun j => Data.word (arr + 4 * (i + j)))).reverse ++
          list.head := by
  intro remaining
  induction remaining with
  | zero => intro i list; simp [createIntArrayLiteralLoop]
  | succ r ih =>
    intro i list
    rw [createIntArrayLiteralLoop, ih, List.range_succ_eq_map]
    simp only [addFront, List.map_cons, List.map_map, List.reverse_cons, List.append_assoc,
      List.singleton_append, add_zero]
    congr 2
    apply List.map_congr_left
    intro j _
    simp only [Function.comp_apply]
    congr 2
    omega

theorem createIntArrayLiteral_head (list : CList) (arr : Nat) (numElements : Int) :
    (createIntArrayLiteral list arr numElements).head =
      (List.range numElements.toNat).map (fun j => Data.word (arr + 4 * j)) := by
  rw [createIntArrayLiteral, flat_reverseList_head, createIntArrayLiteralLoop_head]
  simp [initList]

theorem flat_addAfter_head_cons (list : CList) (prevNode : NodePtr) (x : Data) :
    ∃ e r, (addAfter list prevNode x).1.head = e :: r := by
  cases prevNode with
  | nil => exact ⟨x, list.head, rfl⟩
  | cons d rest =>
    obtain ⟨e, r, h⟩ := MyList3D.storeNode_cons list.head (d :: rest) d (x :: rest)
    exact ⟨e, r, by simp [addAfter, h]⟩

theorem flat_insertElement_head_cons (list : CList) (index : Int) (x : Data) :
    ∃ e r, (insertElement list index x).1.head = e :: r := by
  by_cases hi : index = 0
  · exact ⟨x, list.head, by simp [insertElement, hi, addFront]⟩
  · obtain ⟨e, r, h⟩ := flat_addAfter_head_cons list (findByIndex list (index - 1)) x
    exact ⟨e, r, by simp only [insertElement, if_neg hi, h]⟩

theorem flat_nonempty_of_head_cons (list : CList) (e : Data) (r : NodePtr)
    (h : list.head = e :: r) : isEmptyList list = 0 ∧ 1 ≤ length list := by
  constructor
  · simp only [isEmptyList, h]
  · rw [flat_length_eq, h]
    simp

/-- C14: `addFront` called with `x_0`, ..., `x_{n-1}` in turn on an empty list,
followed by one `reverseList`, gives the list of length `n` whose element at
position `i` is `x_i`; and `createIntArrayLiteral`, which does this with the
addresses of `arr[0]`, ..., `arr[n-1]`, gives the list of these addresses in
the order of the array. -/
theorem addFront_then_reverse_keeps_order (xs : List Data) (size_of_type : Nat) (depth : Int)
    (list : CList) (arr : Nat) (numElements : Int) :
    ((MyList3D.reverseList
        (MyList3D.addFrontEach (MyList3D.initList size_of_type depth) xs)).head = xs ∧
      MyList3D.length (MyList3D.reverseList
        (MyList3D.addFrontEach (MyList3D.initList size_of_type depth) xs)) = (xs.length : Int) ∧
      ∀ i : Nat, (MyList3D.reverseList
        (MyList3D.addFrontEach (MyList3D.initList size_of_type depth) xs)).head[i]? = xs[i]?) ∧
    (length (createIntArrayLiteral list arr numElements) = (numElements.toNat : Int) ∧
      ∀ i : Nat, i < numElements.toNat →
        (createIntArrayLiteral list arr numElements).head[i]? = some (Data.word (arr + 4 * i))) := by
  have h := MyList3D.addFrontEach_reverseList_head xs size_of_type depth
  refine ⟨⟨h, by rw [MyList3D.length_eq, h], fun i => by rw [h]⟩, ?_, ?_⟩
  · rw [flat_length_eq, createIntArrayLiteral_head]
    simp
  · intro i hi
    rw [createIntArrayLiteral_head]
    simp [hi]

/-- C14 at the drivers: the row `[1, 2, 3]` built from the addresses of
`nested[0][0..2]`, and `intlist` built from `intarr2`. -/
theorem addFront_then_reverse_keeps_order_witness :
    MyList3D.reverseList (MyList3D.addFrontEach (MyList3D.initList 4 1)
      [.word 100, .word 104, .word 108]) = MyList3D.intlist1 ∧
    values flatMem intlist = [10, 2, 3, 7, 50] ∧
    (MyList3D.reverseList (MyList3D.addFrontEach (MyList3D.initList 4 1)
      [.word 100, .word 104, .word 108])).head = [.word 100, .word 104, .word 108] ∧
    length (createIntArrayLiteral ⟨[]⟩ 500 5) = ((5 : Int).toNat : Int) :=
  ⟨by rfl, by rfl,
   (addFront_then_reverse_keeps_order [.word 100, .word 104, .word 108] 4 1 ⟨[]⟩ 500 5).1.1,
   (addFront_then_reverse_keeps_order [.word 100, .word 104, .word 108] 4 1 ⟨[]⟩ 500 5).2.1⟩

/-- C19: a freshly initialised list has length 0 and `isEmptyList` reports it
empty; after `addFront`, after `addAfter` with any predecessor and after
`insertElement` with any index, `isEmptyList` reports the list non-empty and its
length is at least 1. The depth-aware list, which has no `isEmptyList`, likewise
has length 0 and no head when fresh and length at least 1 after any insertion. -/
theorem fresh_empty_inserted_nonempty (list : CList) (list3 : MyList3D.CList)
    (size_of_type : Nat) (depth : Int) (x : Data) (prevNode : NodePtr) (index : Int) :
    (length (initList list) = 0 ∧ isEmptyList (initList list) = 1 ∧
      (isEmptyList (addFront list x).1 = 0 ∧ 1 ≤ length (addFront list x).1) ∧
      (isEmptyList (addAfter list prevNode x).1 = 0 ∧ 1 ≤ length (addAfter list prevNode x).1) ∧
      (isEmptyList (insertElement list index x).1 = 0 ∧
        1 ≤ length (insertElement list index x).1)) ∧
    (MyList3D.length (MyList3D.initList size_of_type depth) = 0 ∧
      (MyList3D.initList size_of_type depth).head = [] ∧
      1 ≤ MyList3D.length (MyList3D.addFront list3 x).1 ∧
      1 ≤ MyList3D.length (MyList3D.addAfter list3 prevNode x).1 ∧
      1 ≤ MyList3D.length (MyList3D.insertElement list3 index x)) := by
  obtain ⟨e1, r1, h1⟩ := flat_addAfter_head_cons list prevNode x
  obtain ⟨e2, r2, h2⟩ := flat_insertElement_head_cons list index x
  obtain ⟨e3, r3, h3⟩ := MyList3D.addAfter_head_cons list3 prevNode x
  obtain ⟨e4, r4, h4⟩ := MyList3D.insertElement_head_cons list3 index x
  refine ⟨⟨rfl, rfl, flat_nonempty_of_head_cons _ x list.head rfl, flat_nonempty_of_head_cons _ e1 r1 h1,
    flat_nonempty_of_head_cons _ e2 r2 h2⟩, rfl, rfl, ?_, ?_, ?_⟩
  · exact MyList3D.length_pos_of_head_cons _ x list3.head (MyList3D.addFront_head list3 x)
  · exact MyList3D.length_pos_of_head_cons _ e3 r3 h3
  · exact MyList3D.length_pos_of_head_cons _ e4 r4 h4

/-- C19 at the drivers: the fresh lists and the lists after one `addFront`. -/
theorem fresh_empty_inserted_nonempty_witness :
    isEmptyList (initList intlist) = 1 ∧
    isEmptyList (addFront (initList intlist) (.word 600)).1 = 0 ∧
    MyList3D.length (MyList3D.initList 8 2) = 0 ∧
    1 ≤ MyList3D.length (MyList3D.insertElement (MyList3D.initList 8 2) 5 (.word 600)) :=
  ⟨(fresh_empty_inserted_nonempty intlist (MyList3D.initList 8 2) 8 2 (.word 600) [] 5).1.2.1,
   (fresh_empty_inserted_nonempty (initList intlist) (MyList3D.initList 8 2) 8 2
     (.word 600) [] 5).1.2.2.1.1,
   (fresh_empty_inserted_nonempty intlist (MyList3D.initList 8 2) 8 2 (.word 600) [] 5).2.1,
   (fresh_empty_inserted_nonempty intlist (MyList3D.initList 8 2) 8 2
     (.word 600) [] 5).2.2.2.2.2⟩

/-- C20: in the scenario of the flat driver the three calls share the variable
`int_pos`, which `insertElement` decrements from 1 to 0. The list shows
`[10, 8, 2, 3, 7, 50]` after the insert, then `[20, 8, 2, 3, 7, 50]` after the
assign and `[8, 2, 3, 7, 50]` after the remove: the last two act on position 0. -/
theorem intScenario_acts_on_position_zero :
    values flatMem intlist = [10, 2, 3, 7, 50] ∧
    (insertElement intlist 1 (.word 600)).2 = 0 ∧
    intScenario =
      .ok ([10, 8, 2, 3, 7, 50], [20, 8, 2, 3, 7, 50], [8, 2, 3, 7, 50]) := by
  decide

/-! ## The flat list as the depth-aware list at depth 1 -/

theorem flat_findByIndexLoop_eq (indexSought : Int) :
    ∀ (chain : NodePtr) (indexAt : Int),
      findByIndexLoop indexSought chain indexAt =
        MyList3D.findByIndexLoop indexSought chain indexAt := by
  intro chain
  induction chain with
  | nil => intro indexAt; rfl
  | cons d next ih =>
    intro indexAt
    simp only [findByIndexLoop, MyList3D.findByIndexLoop, ih]

theorem flat_lengthLoop_deep : ∀ (chain : NodePtr) (count : Int),
    lengthLoop chain count = MyList3D.lengthLoop chain count := by
  intro chain
  induction chain with
  | nil => intro count; rfl
  | cons d next ih =>
    intro count
    simp only [lengthLoop, MyList3D.lengthLoop, ih]

theorem flat_findNodeLoop_eq (compar : Data → Data → Int) (dataSought : Data) :
    ∀ chain : NodePtr,
      findNodeLoop compar dataSought chain = MyList3D.findNodeLeaves compar dataSought chain := by
  intro chain
  induction chain with
  | nil => rfl
  | cons d next ih => simp only [findNodeLoop, MyList3D.findNodeLeaves, ih]

theorem flat_findIndexOfNodeLoop_eq (compar : Data → Data → Int) (dataSought : Data) :
    ∀ (chain : NodePtr) (count : Int),
      findIndexOfNodeLoop compar dataSought chain count =
        MyList3D.findIndexOfNodeLeaves compar dataSought chain count := by
  intro chain
  induction chain with
  | nil => intro count; rfl
  | cons d next ih =>
    intro count
    simp only [findIndexOfNodeLoop, MyList3D.findIndexOfNodeLeaves, ih]

theorem flat_removeNodeLoop_eq (indexSought : Int) :
    ∀ (chain : NodePtr) (indexAt : Int),
      removeNodeLoop indexSought chain indexAt =
        MyList3D.removeNodeLoop indexSought chain indexAt := by
  intro chain
  induction chain with
  | nil => intro indexAt; rfl
  | cons d next ih =>
    intro indexAt
    simp only [removeNodeLoop, MyList3D.removeNodeLoop, ih]

theorem flat_reverseListLoop_deep : ∀ cur prv : NodePtr,
    reverseListLoop cur prv = MyList3D.reverseListLoop cur prv := by
  intro cur
  induction cur with
  | nil => intro prv; rfl
  | cons d nxt ih =>
    intro prv
    simp only [reverseListLoop, MyList3D.reverseListLoop, ih]

theorem flat_findByIndex_deep (head : NodePtr) (size_of_type : Nat) (depth : Int) (i : Int) :
    findByIndex ⟨head⟩ i = MyList3D.findByIndex (.mk head size_of_type depth) i := by
  simp only [findByIndex, MyList3D.findByIndex, MyList3D.CList.head, flat_findByIndexLoop_eq]

theorem flat_addAfter_deep (head : NodePtr) (size_of_type : Nat) (depth : Int)
    (prevNode : NodePtr) (x : Data) :
    (addAfter ⟨head⟩ prevNode x).1.head =
        (MyList3D.addAfter (.mk head size_of_type depth) prevNode x).1.head ∧
      (addAfter ⟨head⟩ prevNode x).2 =
        (MyList3D.addAfter (.mk head size_of_type depth) prevNode x).2 := by
  cases prevNode with
  | nil => exact ⟨rfl, rfl⟩
  | cons d rest => exact ⟨rfl, rfl⟩

theorem flat_removeNode_deep (head : NodePtr) (size_of_type : Nat) (depth : Int) (i : Int) :
    (removeNode ⟨head⟩ i).map (fun r => (r.1, r.2.head)) =
      (MyList3D.removeNode (.mk head size_of_type depth) i).map (fun r => (r.1, r.2.head)) := by
  cases head with
  | nil => rfl
  | cons d next =>
    by_cases hi : i = 0
    · simp [removeNode, MyList3D.removeNode, MyList3D.CList.head, hi, Except.map,
        MyList3D.CList.setHead]
    · simp only [removeNode, MyList3D.removeNode, MyList3D.CList.head, if_neg hi,
        flat_removeNodeLoop_eq]
      cases MyList3D.removeNodeLoop i (d :: next) 0 with
      | error e => rfl
      | ok r => rfl

theorem flat_insertElement_deep (head : NodePtr) (size_of_type : Nat) (depth : Int)
    (index : Int) (x : Data) :
    (insertElement ⟨head⟩ index x).1.head =
      (MyList3D.insertElement (.mk head size_of_type depth) index x).head := by
  by_cases hi : index = 0
  · simp [insertElement, MyList3D.insertElement, hi, addFront, MyList3D.addFront,
      MyList3D.CList.head, MyList3D.CList.setHead]
  · simp only [insertElement, MyList3D.insertElement, if_neg hi,
      flat_findByIndex_deep head size_of_type depth (index - 1)]
    exact (flat_addAfter_deep head size_of_type depth _ x).1

theorem flat_assignElement_deep (head : NodePtr) (size_of_type : Nat) (depth : Int)
    (index : Int) (x : Data) :
    (assignElement ⟨head⟩ index x).map (fun l => l.head) =
      (MyList3D.assignElement (.mk head size_of_type depth) index x).map (fun l => l.head) := by
  simp only [assignElement, MyList3D.assignElement,
    flat_findByIndex_deep head size_of_type depth index]
  cases MyList3D.findByIndex (.mk head size_of_type depth) index with
  | nil => rfl
  | cons d next => rfl

/-- The flat `insertElement` leaves in `*index` the index of the predecessor. -/
theorem flat_insertElement_index (list : CList) (index : Int) (x : Data) :
    (insertElement list index x).2 = if index = 0 then 0 else index - 1 := by
  by_cases hi : index = 0
  · simp [insertElement, hi]
  · simp [insertElement, hi]

/-- C22: the flat list is the depth-aware list at depth 1. On the same chain of
elements and the same arguments, the flat `findByIndex`, `findNode`,
`findIndexOfNode`, `length`, `popFront`, `removeNode`, `addFront`, `addAfter`,
`reverseList`, `insertElement` and `assignElement` return what the depth-aware
functions return on the depth-1 list (the same fault where there is one) and
leave the same chain of elements. -/
theorem flat_refines_depth_one (head : NodePtr) (size_of_type : Nat) (i : Int)
    (dataSought x : Data) (compar : Data → Data → Int) (prevNode : NodePtr) :
    findByIndex ⟨head⟩ i = MyList3D.findByIndex (.mk head size_of_type 1) i ∧
    MyList3D.findNode (.mk head size_of_type 1) dataSought compar =
      .ok (findNode ⟨head⟩ dataSought compar) ∧
    MyList3D.findIndexOfNode (.mk head size_of_type 1) dataSought compar =
      .ok (findIndexOfNode ⟨head⟩ dataSought compar) ∧
    length ⟨head⟩ = MyList3D.length (.mk head size_of_type 1) ∧
    ((popFront ⟨head⟩).1 = (MyList3D.popFront (.mk head size_of_type 1)).1 ∧
      (popFront ⟨head⟩).2.head = (MyList3D.popFront (.mk head size_of_type 1)).2.head) ∧
    (removeNode ⟨head⟩ i).map (fun r => (r.1, r.2.head)) =
      (MyList3D.removeNode (.mk head size_of_type 1) i).map (fun r => (r.1, r.2.head)) ∧
    ((addFront ⟨head⟩ x).1.head = (MyList3D.addFront (.mk head size_of_type 1) x).1.head ∧
      (addFront ⟨head⟩ x).2 = (MyList3D.addFront (.mk head size_of_type 1) x).2) ∧
    ((addAfter ⟨head⟩ prevNode x).1.head =
        (MyList3D.addAfter (.mk head size_of_type 1) prevNode x).1.head ∧
      (addAfter ⟨head⟩ prevNode x).2 =
        (MyList3D.addAfter (.mk head size_of_type 1) prevNode x).2) ∧
    (reverseList ⟨head⟩).head = (MyList3D.reverseList (.mk head size_of_type 1)).head ∧
    (insertElement ⟨head⟩ i x).1.head =
      (MyList3D.insertElement (.mk head size_of_type 1) i x).head ∧
    (assignElement ⟨head⟩ i x).map (fun l => l.head) =
      (MyList3D.assignElement (.mk head size_of_type 1) i x).map (fun l => l.head) := by
  refine ⟨flat_findByIndex_deep head size_of_type 1 i, ?_, ?_, ?_, ?_,
    flat_removeNode_deep head size_of_type 1 i, ⟨rfl, rfl⟩,
    flat_addAfter_deep head size_of_type 1 prevNode x, ?_,
    flat_insertElement_deep head size_of_type 1 i x,
    flat_assignElement_deep head size_of_type 1 i x⟩
  · simp [MyList3D.findNode, MyList3D.CList.depth, MyList3D.CList.head, findNode,
      flat_findNodeLoop_eq]
  · simp [MyList3D.findIndexOfNode, MyList3D.CList.depth, MyList3D.CList.head, findIndexOfNode,
      flat_findIndexOfNodeLoop_eq]
  · simp only [length, MyList3D.length, MyList3D.CList.head, flat_lengthLoop_deep]
  · cases head with
    | nil => exact ⟨rfl, rfl⟩
    | cons d next => exact ⟨rfl, rfl⟩
  · simp only [reverseList, MyList3D.reverseList, MyList3D.CList.head, flat_reverseListLoop_deep]
    cases MyList3D.reverseListLoop head [] <;> rfl

/-- C22 at the flat `intlist` of the driver: index 1, needle 7, data word 8. -/
theorem flat_refines_depth_one_witness :
    findByIndex intlist 1 = MyList3D.findByIndex (.mk intlist.head 4 1) 1 ∧
    MyList3D.findIndexOfNode (.mk intlist.head 4 1) (.word 608) (compareInts flatMem) = .ok 3 ∧
    (insertElement intlist 1 (.word 600)).1.head =
      (MyList3D.insertElement (.mk intlist.head 4 1) 1 (.word 600)).head ∧
    (removeNode intlist 1).map (fun r => (r.1, r.2.head)) =
      (MyList3D.removeNode (.mk intlist.head 4 1) 1).map (fun r => (r.1, r.2.head)) :=
  ⟨(flat_refines_depth_one intlist.head 4 1 (.word 608) (.word 600) (compareInts flatMem) []).1,
   by decide,
   (flat_refines_depth_one intlist.head 4 1 (.word 608) (.word 600)
     (compareInts flatMem) []).2.2.2.2.2.2.2.2.2.1,
   (flat_refines_depth_one intlist.head 4 1 (.word 608) (.word 600)
     (compareInts flatMem) []).2.2.2.2.2.1⟩

end MyList
